import Mathlib

/-!
Shallow embedding of the `maze_generation` Rust crate.

Sources embedded here:
* `src/tile.rs`, `src/visit_status.rs`, `src/direction.rs` — the enums.
* `src/pair.rs` — the signed 2D coordinate vector and its arithmetic.
* `src/board.rs` — the generic grid, its constructor and the two
  bounds-checked accessors (`get_from_pair`, `get_mut_from_pair`; the
  only use of the mutable accessor is `*get_mut_from_pair(p)? = v`, which
  is embedded as `set_from_pair`).
* `src/stack.rs` — the stack is represented directly by a Lean `List`
  (push = cons, top = head?, pop = tail, empty = isEmpty).
* `src/maze.rs` — the backtracking generation algorithm.

Machine integers: `usize` values are embedded as `Nat` with wrap-around
written explicitly as `% 2^64` at the two spots where the Rust code can
overflow in a release build (`cell_height.sub(1)` on a zero dimension and
the `*2+1` of `cell_position_to_index`); `i32` coordinates are embedded
as `Int` (no coordinate arithmetic in the crate approaches `i32` bounds).

Randomness: `rand::thread_rng` draws are embedded as an oracle stream
`o : Nat → Nat`; a draw of `gen_range(0..max)` becomes `o k % max` when
`max ≠ 0` and, faithfully to `rand`, panics when `max = 0`.  A `choose`
from a non-empty slice becomes indexing by `o k % length`.  Theorems
quantify over the oracle, so every realizable sequence of random draws
(including every iteration order of the intermediate `HashSet`) is
covered.  Panics are distinguished from Rust's `None` by the result type
`RRes` (`panicked` / `fail` / `ok`).
-/

/-- `Tile` from `src/tile.rs`. -/
inductive Tile where
  | Wall
  | Path
  | Entry
deriving DecidableEq, Repr

/-- `impl Default for Tile` returns `Tile::Wall`. -/
instance : Inhabited Tile := ⟨Tile.Wall⟩

/-- `VisitStatus` from `src/visit_status.rs`. -/
inductive VisitStatus where
  | Unvisited
  | Visited
deriving DecidableEq, Repr

/-- `impl Default for VisitStatus` returns `VisitStatus::Unvisited`. -/
instance : Inhabited VisitStatus := ⟨VisitStatus.Unvisited⟩

/-- `Direction` from `src/direction.rs`; `#[default]` is `Up`. -/
inductive Direction where
  | Up
  | Right
  | Down
  | Left
deriving DecidableEq, Repr

instance : Inhabited Direction := ⟨Direction.Up⟩

/-- `Direction::iter()` (strum `EnumIter`): the declaration order
`Up, Right, Down, Left`. -/
def Direction.iter : List Direction :=
  [Direction.Up, Direction.Right, Direction.Down, Direction.Left]

/-- `Pair` from `src/pair.rs`: a row/column pair of `i32`. -/
structure Pair where
  row : Int
  col : Int
deriving DecidableEq, Repr

/-- `Pair::from_row_and_col`. -/
def Pair.from_row_and_col (row col : Int) : Pair := ⟨row, col⟩

/-- `impl Add for Pair`: componentwise vector addition. -/
def Pair.add (a b : Pair) : Pair := ⟨a.row + b.row, a.col + b.col⟩

/-- `impl Mul<Pair> for i32` (and symmetrically `Mul<i32> for Pair`):
scalar multiplication, used in the source as `CELL_STEP.mul(pair)`. -/
def Pair.smul (k : Int) (p : Pair) : Pair := ⟨p.row * k, p.col * k⟩

/-- `impl From<Direction> for Pair`: the unit offset of a direction. -/
def Pair.fromDirection : Direction → Pair
  | Direction.Down => ⟨1, 0⟩
  | Direction.Left => ⟨0, -1⟩
  | Direction.Up => ⟨-1, 0⟩
  | Direction.Right => ⟨0, 1⟩

/-- `CELL_STEP` from `src/board.rs`. -/
def CELL_STEP : Int := 2

/-- `2^64`, the modulus of `usize` arithmetic. -/
def USIZE_MOD : Nat := 18446744073709551616

/-- `i32::MAX`. -/
def I32_MAX : Nat := 2147483647

/-- `Board<T>` from `src/board.rs`. -/
structure Board (T : Type) where
  grid : List (List T)
  cell_width : Nat
  cell_height : Nat
deriving DecidableEq, Repr

/-- `Board::cell_position_to_index`: `position.mul(CELL_STEP as usize).add(1)`,
with the release-build wrap-around of `usize` arithmetic made explicit. -/
def Board.cell_position_to_index (position : Nat) : Nat :=
  (position * 2 + 1) % USIZE_MOD

/-- `Board::new(height, width)`: note that, as written in the source, the
inner vector (one row) has `cell_position_to_index(height)` entries and the
outer vector has `cell_position_to_index(width)` rows. -/
def Board.new (T : Type) [Inhabited T] (height width : Nat) : Board T :=
  { grid := List.replicate (Board.cell_position_to_index width)
      (List.replicate (Board.cell_position_to_index height) (default : T)),
    cell_width := width,
    cell_height := height }

/-- `usize::try_from(i : i32).ok()`: succeeds exactly on non-negative input. -/
def usizeTryFrom (i : Int) : Option Nat :=
  if 0 ≤ i then some i.toNat else none

/-- `Board::get_from_pair`; each `match` on `none` is one firing of the `?`
operator in the source. -/
def Board.get_from_pair {T : Type} (b : Board T) (pair : Pair) : Option T :=
  match usizeTryFrom pair.row with
  | none => none
  | some row_index =>
    match b.grid[row_index]? with
    | none => none
    | some row =>
      match usizeTryFrom pair.col with
      | none => none
      | some col_index => row[col_index]?

/-- `*Board::get_mut_from_pair(pair)? = value`: the write through the mutable
accessor.  It succeeds exactly when `get_mut_from_pair` returns `Some`,
i.e. under the same bounds checks as `get_from_pair`. -/
def Board.set_from_pair {T : Type} (b : Board T) (pair : Pair) (value : T) :
    Option (Board T) :=
  match usizeTryFrom pair.row with
  | none => none
  | some row_index =>
    match b.grid[row_index]? with
    | none => none
    | some row =>
      match usizeTryFrom pair.col with
      | none => none
      | some col_index =>
        match row[col_index]? with
        | none => none
        | some _ =>
          some { b with grid := b.grid.set row_index (row.set col_index value) }

/-- `Perimeter` is imported by `src/maze.rs` from `src/pair.rs`, where no
declaration survives in the sources; its shape (a record holding the field
`pair`) is forced by every construction site in `src/maze.rs`.
Modelled from the spec: a perimeter cell, "the outermost ring of
cell-aligned positions adjacent to the grid border", carried as its
coordinate `Pair`. -/
structure Perimeter where
  pair : Pair
deriving DecidableEq, Repr

/-- The result of a Rust computation that may panic (`panicked`), return
`None` (`fail`), or return `Some` (`ok`). -/
inductive RRes (α : Type) where
  | panicked
  | fail
  | ok (value : α)
deriving DecidableEq, Repr

/-- Propagation of both panics and `None` through `?`-style chaining. -/
def RRes.bind {α β : Type} : RRes α → (α → RRes β) → RRes β
  | RRes.panicked, _ => RRes.panicked
  | RRes.fail, _ => RRes.fail
  | RRes.ok a, f => f a

instance : Monad RRes where
  pure := RRes.ok
  bind := RRes.bind

/-- Lift a Rust `Option` (the target of the `?` operator) into `RRes`. -/
def RRes.ofOption {α : Type} : Option α → RRes α
  | none => RRes.fail
  | some a => RRes.ok a

/-- `rand`'s `gen_range(0..max)`: panics on an empty range, otherwise
returns a value `< max` (the oracle draw `r` reduced mod `max`). -/
def genRange (r max : Nat) : RRes Nat :=
  if max = 0 then RRes.panicked else RRes.ok (r % max)

/-- The closure `unsigned_to_signed_cell` in `Maze::choose_perimeter_pair`:
`i32::try_from(Board::cell_position_to_index(value)).ok()`. -/
def unsigned_to_signed_cell (value : Nat) : Option Int :=
  let idx := Board.cell_position_to_index value
  if idx ≤ I32_MAX then some (idx : Int) else none

/-- The closure `pick_random_cell` in `Maze::choose_perimeter_pair`:
`unsigned_to_signed_cell(thread_rng().gen_range(0..max))`. -/
def pick_random_cell (r max : Nat) : RRes Int :=
  RRes.bind (genRange r max) (fun v => RRes.ofOption (unsigned_to_signed_cell v))

/-- `usize` subtraction by one (`value.sub(1)`) with the release-build
wrap-around made explicit: `0 - 1` wraps to `2^64 - 1`. -/
def usizeSubOne (n : Nat) : Nat :=
  (n + (USIZE_MOD - 1)) % USIZE_MOD

/-- `Maze` from `src/maze.rs`: the generated maze, owning its tile board. -/
structure Maze where
  board : Board Tile
deriving DecidableEq, Repr

namespace Maze

/-- `Maze::choose_perimeter_pair`, with the two `thread_rng` draws made
explicit: `sideR` feeds the `choose` over the four directions and `cellR`
feeds `gen_range` inside `pick_random_cell`.  The `unwrap_or_default()`
on the side choice is unreachable (the slice has four elements), embedded
as `getD` with the `Direction` default. -/
def choose_perimeter_pair {T : Type} (board : Board T) (sideR cellR : Nat) :
    RRes Perimeter :=
  let side := Direction.iter.getD (sideR % Direction.iter.length) default
  match side with
  | Direction.Down =>
      RRes.bind (RRes.ofOption (unsigned_to_signed_cell (usizeSubOne board.cell_height)))
        (fun row => RRes.bind (pick_random_cell cellR board.cell_width)
          (fun col => RRes.ok { pair := { row := row, col := col } }))
  | Direction.Left =>
      RRes.bind (pick_random_cell cellR board.cell_height)
        (fun row => RRes.bind (RRes.ofOption (unsigned_to_signed_cell 0))
          (fun col => RRes.ok { pair := { row := row, col := col } }))
  | Direction.Up =>
      RRes.bind (RRes.ofOption (unsigned_to_signed_cell 0))
        (fun row => RRes.bind (pick_random_cell cellR board.cell_width)
          (fun col => RRes.ok { pair := { row := row, col := col } }))
  | Direction.Right =>
      RRes.bind (pick_random_cell cellR board.cell_height)
        (fun row => RRes.bind (RRes.ofOption (unsigned_to_signed_cell (usizeSubOne board.cell_width)))
          (fun col => RRes.ok { pair := { row := row, col := col } }))

/-- `Maze::get_unvisited_directions`.  The Rust function returns a
`HashSet<Direction>`; here the filtered list in the fixed iteration order
`Up, Right, Down, Left` represents that set (membership is what matters;
random selection from it is oracle-indexed, covering every hash order). -/
def get_unvisited_directions (pair : Pair) (visited : Board VisitStatus) :
    List Direction :=
  Direction.iter.filter fun direction =>
    decide (visited.get_from_pair
        (pair.add (Pair.smul CELL_STEP (Pair.fromDirection direction)))
      = some VisitStatus.Unvisited)

/-- `Maze::choose_random_unvisited_direction`: `choose` over the collected
candidate set, `None` when it is empty, with `r` the oracle draw. -/
def choose_random_unvisited_direction (pair : Pair)
    (visited : Board VisitStatus) (r : Nat) : Option Direction :=
  let direction_choices := get_unvisited_directions pair visited
  direction_choices[r % direction_choices.length]?

/-- `Maze::visit_and_mark_as_path`: sets the tile at `pair` to `Path` and
its visit status to `Visited`; `none` on an indexing failure. -/
def visit_and_mark_as_path (board : Board Tile) (visited : Board VisitStatus)
    (pair : Pair) : Option (Board Tile × Board VisitStatus) := do
  let board' ← board.set_from_pair pair Tile.Path
  let visited' ← visited.set_from_pair pair VisitStatus.Visited
  some (board', visited')

/-- `Maze::add_maze_entry`: find the first direction (in iteration order)
whose two-step neighbour is off the board and set the one-step neighbour
in that direction to `Entry`; leave the board unchanged if no direction
qualifies or the write target is itself off the board. -/
def add_maze_entry (perimeter_tile : Perimeter) (board : Board Tile) :
    Board Tile :=
  match Direction.iter.find? (fun direction =>
      (board.get_from_pair (perimeter_tile.pair.add
        (Pair.smul CELL_STEP (Pair.fromDirection direction)))).isNone) with
  | none => board
  | some direction =>
      match board.set_from_pair
          (perimeter_tile.pair.add (Pair.fromDirection direction)) Tile.Entry with
      | none => board
      | some board' => board'

/-- The number of `Unvisited` entries of a visit-status board: the
termination measure component of the carve loop. -/
def unvisitedCount (visited : Board VisitStatus) : Nat :=
  (visited.grid.map (fun row =>
    row.countP (fun s => decide (s = VisitStatus.Unvisited)))).sum

end Maze

/-! ### Basic lemmas about the bounds-checked accessors -/

theorem usizeTryFrom_eq_some {i : Int} {n : Nat} :
    usizeTryFrom i = some n ↔ 0 ≤ i ∧ i.toNat = n := by
  unfold usizeTryFrom
  split <;> simp_all

theorem usizeTryFrom_inj {a b : Int} {n : Nat}
    (ha : usizeTryFrom a = some n) (hb : usizeTryFrom b = some n) : a = b := by
  rw [usizeTryFrom_eq_some] at ha hb
  omega

theorem Board.get_from_pair_eq_some {T : Type} {b : Board T} {p : Pair} {x : T} :
    b.get_from_pair p = some x ↔
      ∃ ri row ci, usizeTryFrom p.row = some ri ∧ b.grid[ri]? = some row ∧
        usizeTryFrom p.col = some ci ∧ row[ci]? = some x := by
  unfold Board.get_from_pair
  cases hr : usizeTryFrom p.row with
  | none => simp [Option.bind, hr]
  | some ri =>
    cases hrow : b.grid[ri]? with
    | none => simp [Option.bind, hr, hrow]
    | some row =>
      cases hc : usizeTryFrom p.col with
      | none => simp [Option.bind, hr, hrow, hc]
      | some ci => simp [Option.bind, hr, hrow, hc]

theorem Board.set_from_pair_eq_some {T : Type} {b b' : Board T} {p : Pair} {v : T} :
    b.set_from_pair p v = some b' ↔
      ∃ ri row ci x, usizeTryFrom p.row = some ri ∧ b.grid[ri]? = some row ∧
        usizeTryFrom p.col = some ci ∧ row[ci]? = some x ∧
        b' = { b with grid := b.grid.set ri (row.set ci v) } := by
  unfold Board.set_from_pair
  cases hr : usizeTryFrom p.row with
  | none => simp [Option.bind, hr]
  | some ri =>
    cases hrow : b.grid[ri]? with
    | none => simp [Option.bind, hr, hrow]
    | some row =>
      cases hc : usizeTryFrom p.col with
      | none => simp [Option.bind, hr, hrow, hc]
      | some ci =>
        cases hx : row[ci]? with
        | none => simp [Option.bind, hr, hrow, hc, hx]
        | some x =>
          constructor
          · intro h
            simp only [hrow, hx] at h
            injection h with h
            exact ⟨ri, row, ci, x, rfl, hrow, rfl, hx, h.symm⟩
          · rintro ⟨ri', row', ci', x', h1, h2, h3, h4, h5⟩
            injection h1 with h1; subst h1
            injection h3 with h3; subst h3
            rw [hrow] at h2; injection h2 with h2; subst h2
            simp only [hrow, hx, h5]

/-- A successful write requires the target to be readable beforehand. -/
theorem Board.set_from_pair_isSome_get {T : Type} {b b' : Board T} {p : Pair}
    {v : T} (h : b.set_from_pair p v = some b') :
    ∃ x, b.get_from_pair p = some x := by
  rw [Board.set_from_pair_eq_some] at h
  obtain ⟨ri, row, ci, x, h1, h2, h3, h4, _⟩ := h
  exact ⟨x, Board.get_from_pair_eq_some.mpr ⟨ri, row, ci, h1, h2, h3, h4⟩⟩

/-- Reading after a write: the written value at the written pair, the old
value everywhere else. -/
theorem Board.get_from_pair_set_from_pair {T : Type} {b b' : Board T} {p : Pair}
    {v : T} (h : b.set_from_pair p v = some b') (q : Pair) :
    b'.get_from_pair q = if q = p then some v else b.get_from_pair q := by
  rw [Board.set_from_pair_eq_some] at h
  obtain ⟨ri, row, ci, x, h1, h2, h3, h4, h5⟩ := h
  subst h5
  have hrilt : ri < b.grid.length := (List.getElem?_eq_some_iff.mp h2).1
  have hcilt : ci < row.length := (List.getElem?_eq_some_iff.mp h4).1
  by_cases hq : q = p
  · subst hq
    simp only [if_pos rfl]
    refine Board.get_from_pair_eq_some.mpr ⟨ri, row.set ci v, ci, h1, ?_, h3, ?_⟩
    · simpa using List.getElem?_set_self hrilt
    · simpa using List.getElem?_set_self hcilt
  · rw [if_neg hq]
    show Board.get_from_pair _ q = Board.get_from_pair _ q
    unfold Board.get_from_pair
    cases hqr : usizeTryFrom q.row with
    | none => rfl
    | some qri =>
      by_cases hri : qri = ri
      · subst hri
        simp only []
        rw [List.getElem?_set_self hrilt, h2]
        cases hqc : usizeTryFrom q.col with
        | none => rfl
        | some qci =>
          have hci : qci ≠ ci := by
            intro hcontra
            subst hcontra
            refine hq ?_
            have hrowq : q.row = p.row := usizeTryFrom_inj hqr h1
            have hcolq : q.col = p.col := usizeTryFrom_inj hqc h3
            cases q; cases p; simp_all
          exact List.getElem?_set_ne (fun hcc => hci hcc.symm)
      · simp only []
        rw [List.getElem?_set_ne (fun hrr => hri hrr.symm)]

/-! ### Counting lemmas for the termination measure -/

theorem countP_set_eq (l : List VisitStatus) (i : Nat) (x : VisitStatus)
    (a : VisitStatus) (hx : l[i]? = some x) (p : VisitStatus → Bool) :
    (l.set i a).countP p + (if p x then 1 else 0)
      = l.countP p + (if p a then 1 else 0) := by
  induction l generalizing i with
  | nil => simp at hx
  | cons hd tl ih =>
    cases i with
    | zero =>
      obtain rfl : x = hd := by simpa using hx.symm
      simp only [List.set_cons_zero, List.countP_cons]
      cases hpa : p a <;> cases hph : p x <;> simp [hpa, hph]
    | succ j =>
      simp only [List.getElem?_cons_succ] at hx
      have := ih j hx
      simp only [List.set_cons_succ, List.countP_cons]
      omega

theorem sum_map_set {α : Type} (g : List α) (i : Nat) (row r' : α)
    (h : g[i]? = some row) (f : α → Nat) :
    ((g.set i r').map f).sum + f row = (g.map f).sum + f r' := by
  induction g generalizing i with
  | nil => simp at h
  | cons hd tl ih =>
    cases i with
    | zero =>
      simp only [List.getElem?_cons_zero, Option.some.injEq] at h
      subst h
      simp only [List.set_cons_zero, List.map_cons, List.sum_cons]
      omega
    | succ j =>
      simp only [List.getElem?_cons_succ] at h
      have := ih j h
      simp only [List.set_cons_succ, List.map_cons, List.sum_cons]
      omega

/-- Marking any pair `Visited` never increases the number of `Unvisited`
entries. -/
theorem Maze.unvisitedCount_set_le {v v' : Board VisitStatus} {p : Pair}
    (h : v.set_from_pair p VisitStatus.Visited = some v') :
    Maze.unvisitedCount v' ≤ Maze.unvisitedCount v := by
  rw [Board.set_from_pair_eq_some] at h
  obtain ⟨ri, row, ci, x, _, h2, _, h4, h5⟩ := h
  have hsum := sum_map_set v.grid ri row (row.set ci VisitStatus.Visited) h2
    (fun r => r.countP (fun s => decide (s = VisitStatus.Unvisited)))
  have hcnt := countP_set_eq row ci x VisitStatus.Visited h4
    (fun s => decide (s = VisitStatus.Unvisited))
  have hL : Maze.unvisitedCount v'
      = ((v.grid.set ri (row.set ci VisitStatus.Visited)).map
          (fun r => r.countP (fun s => decide (s = VisitStatus.Unvisited)))).sum := by
    rw [h5]; rfl
  have hR : Maze.unvisitedCount v
      = (v.grid.map
          (fun r => r.countP (fun s => decide (s = VisitStatus.Unvisited)))).sum := rfl
  rw [hL, hR]
  simp only [] at hsum hcnt
  have hv0 : (if decide (VisitStatus.Visited = VisitStatus.Unvisited) = true
      then 1 else 0) = 0 := rfl
  rw [hv0] at hcnt
  split_ifs at hcnt <;> omega

/-- Marking a currently `Unvisited` pair `Visited` strictly decreases the
number of `Unvisited` entries. -/
theorem Maze.unvisitedCount_set_lt {v v' : Board VisitStatus} {p : Pair}
    (h : v.set_from_pair p VisitStatus.Visited = some v')
    (hu : v.get_from_pair p = some VisitStatus.Unvisited) :
    Maze.unvisitedCount v' < Maze.unvisitedCount v := by
  rw [Board.set_from_pair_eq_some] at h
  obtain ⟨ri, row, ci, x, h1, h2, h3, h4, h5⟩ := h
  rw [Board.get_from_pair_eq_some] at hu
  obtain ⟨ri', row', ci', g1, g2, g3, g4⟩ := hu
  rw [h1] at g1; cases g1
  rw [h2] at g2; cases g2
  rw [h3] at g3; cases g3
  rw [h4] at g4; cases g4
  have hsum := sum_map_set v.grid ri row (row.set ci VisitStatus.Visited) h2
    (fun r => r.countP (fun s => decide (s = VisitStatus.Unvisited)))
  have hcnt := countP_set_eq row ci VisitStatus.Unvisited VisitStatus.Visited h4
    (fun s => decide (s = VisitStatus.Unvisited))
  have hL : Maze.unvisitedCount v'
      = ((v.grid.set ri (row.set ci VisitStatus.Visited)).map
          (fun r => r.countP (fun s => decide (s = VisitStatus.Unvisited)))).sum := by
    rw [h5]; rfl
  have hR : Maze.unvisitedCount v
      = (v.grid.map
          (fun r => r.countP (fun s => decide (s = VisitStatus.Unvisited)))).sum := rfl
  rw [hL, hR]
  simp only [] at hsum hcnt
  have e1 : (if decide True = true then 1 else 0) = 1 := rfl
  have e2 : (if decide (VisitStatus.Visited = VisitStatus.Unvisited) = true
      then 1 else 0) = 0 := rfl
  rw [e1, e2] at hcnt
  omega

/-- Unfolding `visit_and_mark_as_path` into its two writes. -/
theorem Maze.visit_and_mark_as_path_eq_some {board b' : Board Tile}
    {visited v' : Board VisitStatus} {pair : Pair} :
    Maze.visit_and_mark_as_path board visited pair = some (b', v') ↔
      board.set_from_pair pair Tile.Path = some b' ∧
        visited.set_from_pair pair VisitStatus.Visited = some v' := by
  unfold Maze.visit_and_mark_as_path
  cases hb : board.set_from_pair pair Tile.Path with
  | none => simp [Option.bind, hb]
  | some bb =>
    cases hv : visited.set_from_pair pair VisitStatus.Visited with
    | none => simp [Option.bind, hb, hv]
    | some vv => simp [Option.bind, hb, hv, And.comm, eq_comm]

/-- A direction handed back by `choose_random_unvisited_direction` points at
an on-board, `Unvisited` two-step neighbour. -/
theorem Maze.choose_random_unvisited_direction_spec {pair : Pair}
    {visited : Board VisitStatus} {r : Nat} {d : Direction}
    (h : Maze.choose_random_unvisited_direction pair visited r = some d) :
    visited.get_from_pair
        (pair.add (Pair.smul CELL_STEP (Pair.fromDirection d)))
      = some VisitStatus.Unvisited := by
  unfold Maze.choose_random_unvisited_direction at h
  have hmem : d ∈ Maze.get_unvisited_directions pair visited :=
    List.getElem?_mem h
  unfold Maze.get_unvisited_directions at hmem
  rw [List.mem_filter] at hmem
  exact of_decide_eq_true hmem.2

namespace Maze

/-- The body of the `while !visited_stack.empty()` loop of
`Maze::from_backtracking`, iterated under a fuel bound (the `0` case is
never reached from `carveLoop`, by `carveLoopFuel_sufficient`).  The stack
is the list (top = head); `o` is the oracle stream and `k` the index of
the next unconsumed draw. -/
def carveLoopFuel : Nat → Board Tile → Board VisitStatus → List Pair →
    (Nat → Nat) → Nat → Option (Board Tile × Board VisitStatus × Nat)
  | 0, _, _, _, _, _ => none
  | fuel + 1, board, visited, stack, o, k =>
    match stack with
    | [] => some (board, visited, k)
    | popped_pair :: rest =>
      match choose_random_unvisited_direction popped_pair visited (o k) with
      | none =>
        match visit_and_mark_as_path board visited popped_pair with
        | none => none
        | some (board', visited') => carveLoopFuel fuel board' visited' rest o k
      | some direction =>
        let new_pair :=
          popped_pair.add (Pair.smul CELL_STEP (Pair.fromDirection direction))
        match visit_and_mark_as_path board visited new_pair with
        | none => none
        | some (board1, visited1) =>
          let in_between_pair := popped_pair.add (Pair.fromDirection direction)
          match visit_and_mark_as_path board1 visited1 in_between_pair with
          | none => none
          | some (board2, visited2) =>
            carveLoopFuel fuel board2 visited2
              (new_pair :: popped_pair :: rest) o (k + 1)

/-- The `while` loop of `Maze::from_backtracking`: its body iterated until
the stack empties.  `2·(unvisited count) + stack length + 1` rounds of the
body always suffice, because every iteration either marks a previously
`Unvisited` position `Visited` (candidate branch) or strictly shrinks the
stack (backtrack branch); `carveLoopFuel_sufficient` proves the bound, so
this is the loop's unique fixpoint semantics. -/
def carveLoop (board : Board Tile) (visited : Board VisitStatus)
    (stack : List Pair) (o : Nat → Nat) (k : Nat) :
    Option (Board Tile × Board VisitStatus × Nat) :=
  carveLoopFuel (2 * unvisitedCount visited + stack.length + 1)
    board visited stack o k

/-- One unfolding of the loop body. -/
theorem carveLoopFuel_succ (fuel : Nat) (board : Board Tile)
    (visited : Board VisitStatus) (stack : List Pair) (o : Nat → Nat) (k : Nat) :
    carveLoopFuel (fuel + 1) board visited stack o k =
      match stack with
      | [] => some (board, visited, k)
      | popped_pair :: rest =>
        match choose_random_unvisited_direction popped_pair visited (o k) with
        | none =>
          match visit_and_mark_as_path board visited popped_pair with
          | none => none
          | some (board', visited') => carveLoopFuel fuel board' visited' rest o k
        | some direction =>
          match visit_and_mark_as_path board visited
              (popped_pair.add (Pair.smul CELL_STEP (Pair.fromDirection direction))) with
          | none => none
          | some (board1, visited1) =>
            match visit_and_mark_as_path board1 visited1
                (popped_pair.add (Pair.fromDirection direction)) with
            | none => none
            | some (board2, visited2) =>
              carveLoopFuel fuel board2 visited2
                (popped_pair.add (Pair.smul CELL_STEP (Pair.fromDirection direction))
                  :: popped_pair :: rest) o (k + 1) := rfl

/-- Any fuel above `2·(unvisited count) + stack length` yields the loop's
result: the loop terminates within that many iterations. -/
theorem carveLoopFuel_sufficient :
    ∀ (fuel : Nat) (board : Board Tile) (visited : Board VisitStatus)
      (stack : List Pair) (o : Nat → Nat) (k : Nat),
      2 * unvisitedCount visited + stack.length < fuel →
      carveLoopFuel fuel board visited stack o k
        = carveLoop board visited stack o k := by
  intro fuel
  induction fuel using Nat.strong_induction_on with
  | _ fuel ih =>
    intro board visited stack o k h
    unfold carveLoop
    cases fuel with
    | zero => omega
    | succ fuel =>
    rw [carveLoopFuel_succ, carveLoopFuel_succ]
    cases stack with
    | nil => rfl
    | cons popped_pair rest =>
      simp only []
      cases hd : choose_random_unvisited_direction popped_pair visited (o k) with
      | none =>
        simp only []
        cases hvm : visit_and_mark_as_path board visited popped_pair with
        | none => rfl
        | some r =>
          obtain ⟨board', visited'⟩ := r
          have hle := Maze.unvisitedCount_set_le
            ((Maze.visit_and_mark_as_path_eq_some.mp hvm).2)
          simp only [List.length_cons] at h
          have hlen : (popped_pair :: rest).length = rest.length + 1 := rfl
          simp only []
          rw [ih fuel (by omega) board' visited' rest o k (by omega),
            ih (2 * unvisitedCount visited + (popped_pair :: rest).length)
              (by omega) board' visited' rest o k (by
                simp only [List.length_cons]
                omega)]
      | some direction =>
        simp only []
        cases hv : visit_and_mark_as_path board visited
            (popped_pair.add (Pair.smul CELL_STEP (Pair.fromDirection direction))) with
        | none => rfl
        | some r1 =>
          obtain ⟨board1, visited1⟩ := r1
          simp only []
          cases hv2 : visit_and_mark_as_path board1 visited1
              (popped_pair.add (Pair.fromDirection direction)) with
          | none => rfl
          | some r2 =>
            obtain ⟨board2, visited2⟩ := r2
            have hu := Maze.choose_random_unvisited_direction_spec hd
            have h1 := Maze.unvisitedCount_set_lt
              ((Maze.visit_and_mark_as_path_eq_some.mp hv).2) hu
            have h2 := Maze.unvisitedCount_set_le
              ((Maze.visit_and_mark_as_path_eq_some.mp hv2).2)
            simp only [List.length_cons] at h
            have hlen : (popped_pair :: rest).length = rest.length + 1 := rfl
            simp only []
            rw [ih fuel (by omega) board2 visited2 _ o (k + 1) (by
                simp only [List.length_cons]
                omega),
              ih (2 * unvisitedCount visited + (popped_pair :: rest).length)
                (by omega) board2 visited2 _ o (k + 1) (by
                  simp only [List.length_cons]
                  omega)]

/-- `Maze::from_backtracking`, with the `thread_rng` draws replaced by the
oracle stream `o`: the start perimeter pick consumes `o 0` (side) and `o 1`
(cell), the loop consumes one draw per carve iteration starting at index 2,
and the end perimeter pick consumes the next two draws. -/
def from_backtracking (height width : Nat) (o : Nat → Nat) : RRes Maze :=
  let board0 := Board.new Tile height width
  let visited0 := Board.new VisitStatus height width
  match choose_perimeter_pair board0 (o 0) (o 1) with
  | RRes.panicked => RRes.panicked
  | RRes.fail => RRes.fail
  | RRes.ok start =>
    let board1 := add_maze_entry start board0
    match visit_and_mark_as_path board1 visited0 start.pair with
    | none => RRes.fail
    | some (board2, visited2) =>
      match carveLoop board2 visited2 [start.pair] o 2 with
      | none => RRes.fail
      | some (board3, visited3, k) =>
        match choose_perimeter_pair board3 (o k) (o (k + 1)) with
        | RRes.panicked => RRes.panicked
        | RRes.fail => RRes.fail
        | RRes.ok e =>
          match visit_and_mark_as_path board3 visited3 e.pair with
          | none => RRes.fail
          | some (board4, _visited4) =>
            RRes.ok { board := add_maze_entry e board4 }

end Maze

/-- Functorial map over `RRes`, for stating results about the `ok` payload. -/
def RRes.map {α β : Type} (f : α → β) : RRes α → RRes β
  | RRes.panicked => RRes.panicked
  | RRes.fail => RRes.fail
  | RRes.ok a => RRes.ok (f a)

/-- The rows of a freshly allocated board all have length
`cell_position_to_index height`, and there are `cell_position_to_index width`
of them (the dimensions the source actually allocates). -/
theorem Board.new_shape (T : Type) [Inhabited T] (height width : Nat) :
    (Board.new T height width).grid.length = Board.cell_position_to_index width ∧
      ∀ row ∈ (Board.new T height width).grid,
        row.length = Board.cell_position_to_index height := by
  constructor
  · exact List.length_replicate _ _
  · intro row hrow
    have := List.eq_of_mem_replicate hrow
    rw [this]
    exact List.length_replicate _ _

theorem Board.getD_grid_of_getElem {T : Type} {b : Board T} {i : Nat}
    {row : List T} (h : b.grid[i]? = some row) : b.grid.getD i [] = row := by
  rw [List.getD_eq_getElem?_getD, h]
  rfl

/-- C5: `Board::get_from_pair` (and the write through
`Board::get_mut_from_pair`) returns a value exactly when the row component
is a valid row index and the column component a valid index into that row;
any negative or out-of-range component yields `none`. -/
theorem get_and_set_from_pair_in_bounds (T : Type) (b : Board T) (p : Pair)
    (v : T) :
    ((b.get_from_pair p).isSome = true ↔
       0 ≤ p.row ∧ p.row.toNat < b.grid.length ∧ 0 ≤ p.col ∧
         p.col.toNat < (b.grid.getD p.row.toNat []).length) ∧
    ((b.set_from_pair p v).isSome = true ↔
       0 ≤ p.row ∧ p.row.toNat < b.grid.length ∧ 0 ≤ p.col ∧
         p.col.toNat < (b.grid.getD p.row.toNat []).length) := by
  have hget : (b.get_from_pair p).isSome = true ↔
      (0 ≤ p.row ∧ p.row.toNat < b.grid.length ∧ 0 ≤ p.col ∧
        p.col.toNat < (b.grid.getD p.row.toNat []).length) := by
    rw [Option.isSome_iff_exists]
    constructor
    · rintro ⟨x, hx⟩
      obtain ⟨ri, row, ci, h1, h2, h3, h4⟩ := Board.get_from_pair_eq_some.mp hx
      obtain ⟨hr0, hrn⟩ := usizeTryFrom_eq_some.mp h1
      obtain ⟨hc0, hcn⟩ := usizeTryFrom_eq_some.mp h3
      subst hrn; subst hcn
      refine ⟨hr0, (List.getElem?_eq_some_iff.mp h2).1, hc0, ?_⟩
      rw [Board.getD_grid_of_getElem h2]
      exact (List.getElem?_eq_some_iff.mp h4).1
    · rintro ⟨hr0, hrn, hc0, hcn⟩
      cases hrow : b.grid[p.row.toNat]? with
      | none =>
        rw [List.getElem?_eq_none_iff] at hrow
        omega
      | some row =>
        rw [Board.getD_grid_of_getElem hrow] at hcn
        cases hcol : row[p.col.toNat]? with
        | none =>
          rw [List.getElem?_eq_none_iff] at hcol
          omega
        | some x =>
          exact ⟨x, Board.get_from_pair_eq_some.mpr
            ⟨p.row.toNat, row, p.col.toNat,
              usizeTryFrom_eq_some.mpr ⟨hr0, rfl⟩, hrow,
              usizeTryFrom_eq_some.mpr ⟨hc0, rfl⟩, hcol⟩⟩
  refine ⟨hget, ?_⟩
  rw [← hget, Option.isSome_iff_exists, Option.isSome_iff_exists]
  constructor
  · rintro ⟨b', hb'⟩
    obtain ⟨x, hx⟩ := Board.set_from_pair_isSome_get hb'
    exact ⟨x, hx⟩
  · rintro ⟨x, hx⟩
    obtain ⟨ri, row, ci, h1, h2, h3, h4⟩ := Board.get_from_pair_eq_some.mp hx
    exact ⟨_, Board.set_from_pair_eq_some.mpr ⟨ri, row, ci, x, h1, h2, h3, h4, rfl⟩⟩

/-- C5 witness: on the 3×3 board of `Board::new(1,1)`, the pair `(1,1)` is
readable and writable, while `(-1,0)` and `(3,0)` are not. -/
theorem get_and_set_from_pair_in_bounds_witness :
    ((Board.new Tile 1 1).get_from_pair ⟨1, 1⟩).isSome = true ∧
    ((Board.new Tile 1 1).get_from_pair ⟨-1, 0⟩).isSome = false ∧
    ((Board.new Tile 1 1).get_from_pair ⟨3, 0⟩).isSome = false := by
  refine ⟨?_, by decide, by decide⟩
  exact (get_and_set_from_pair_in_bounds Tile (Board.new Tile 1 1)
    ⟨1, 1⟩ Tile.Wall).1.mpr (by decide)

/-- C1: refuted as stated — `Board::new(h, w)` allocates
`cell_position_to_index(width) = 2·w+1` rows whose length is
`cell_position_to_index(height) = 2·h+1`, i.e. the dimensions are
transposed relative to the claim; `from_backtracking(1, 2)` can succeed
and then exposes a 5-row × 3-column grid, not 3 × 5. -/
theorem board_new_dimensions_transposed :
    (Board.new Tile 1 2).grid.length = 2 * 2 + 1 ∧
    (∀ row ∈ (Board.new Tile 1 2).grid, row.length = 2 * 1 + 1) ∧
    ¬ (Board.new Tile 1 2).grid.length = 2 * 1 + 1 ∧
    (Maze.from_backtracking 1 2 (fun _ => 0)).map (fun m => m.board.grid.length)
      = RRes.ok 5 := by
  refine ⟨by decide, by decide, by decide, by decide⟩

/-- C2: refuted as stated — for height = width = 0, three of the four
perimeter sides make `gen_range(0..0)` panic (empty range): oracle side
draws 0 (`Up`), 1 (`Right`) and 3 (`Left`) panic, and only side draw 2
(`Down`) returns the absent value. -/
theorem from_backtracking_zero_zero_panics :
    Maze.from_backtracking 0 0 (fun _ => 0) = RRes.panicked ∧
    Maze.from_backtracking 0 0 (fun _ => 1) = RRes.panicked ∧
    Maze.from_backtracking 0 0 (fun _ => 3) = RRes.panicked ∧
    Maze.from_backtracking 0 0 (fun _ => 2) = RRes.fail := by
  refine ⟨by decide, by decide, by decide, by decide⟩

/-- C6: a direction is in `get_unvisited_directions(pair, visited)` exactly
when the two-cell-step neighbour in that direction is on the board and
`Unvisited`; and on the 6×6 board of the repository's unit test, with the
`Left` and `Right` two-step neighbours of `(3,3)` marked `Visited`, the
result is exactly `{Up, Down}`. -/
theorem get_unvisited_directions_spec :
    (∀ (pair : Pair) (visited : Board VisitStatus) (d : Direction),
       d ∈ Maze.get_unvisited_directions pair visited ↔
         visited.get_from_pair
             (pair.add (Pair.smul CELL_STEP (Pair.fromDirection d)))
           = some VisitStatus.Unvisited) ∧
    (((Board.new VisitStatus 6 6).set_from_pair ⟨3, 1⟩ VisitStatus.Visited).bind
        (fun b => b.set_from_pair ⟨3, 5⟩ VisitStatus.Visited)).map
      (fun b => Maze.get_unvisited_directions ⟨3, 3⟩ b)
      = some [Direction.Up, Direction.Down] := by
  constructor
  · intro pair visited d
    unfold Maze.get_unvisited_directions
    rw [List.mem_filter]
    constructor
    · intro h
      exact of_decide_eq_true h.2
    · intro h
      refine ⟨?_, decide_eq_true h⟩
      cases d <;> simp [Direction.iter]
  · decide

/-- The position of a direction in the `Direction::iter()` enumeration
order `Up, Right, Down, Left`. -/
def Direction.enumIndex : Direction → Nat
  | Direction.Up => 0
  | Direction.Right => 1
  | Direction.Down => 2
  | Direction.Left => 3

/-- The direction search inside `Maze::add_maze_entry`: the first direction
(in enumeration order) whose two-cell-step neighbour is off the board. -/
def Maze.entryEscapeDir (perimeter_tile : Perimeter) (board : Board Tile) :
    Option Direction :=
  Direction.iter.find? (fun direction =>
    (board.get_from_pair (perimeter_tile.pair.add
      (Pair.smul CELL_STEP (Pair.fromDirection direction)))).isNone)

theorem Maze.add_maze_entry_eq (pt : Perimeter) (board : Board Tile) :
    Maze.add_maze_entry pt board =
      match Maze.entryEscapeDir pt board with
      | none => board
      | some direction =>
        match board.set_from_pair (pt.pair.add (Pair.fromDirection direction))
            Tile.Entry with
        | none => board
        | some board' => board' := rfl

/-- C10: `add_maze_entry` writes at most one tile.  It scans the directions
in enumeration order and picks the first whose two-step neighbour is off
the board (`entryEscapeDir`); with no such direction, or with the one-step
target itself off the board, the board is returned unchanged; otherwise
exactly the one-step target is set to `Entry` and every other tile keeps
its value. -/
theorem add_maze_entry_at_most_one_tile (pt : Perimeter) (board : Board Tile) :
    (∀ d d', Maze.entryEscapeDir pt board = some d →
       Direction.enumIndex d' < Direction.enumIndex d →
       (board.get_from_pair (pt.pair.add
         (Pair.smul CELL_STEP (Pair.fromDirection d')))).isNone = false) ∧
    (∀ d, Maze.entryEscapeDir pt board = some d →
       (board.get_from_pair (pt.pair.add
         (Pair.smul CELL_STEP (Pair.fromDirection d)))).isNone = true) ∧
    (Maze.entryEscapeDir pt board = none → Maze.add_maze_entry pt board = board) ∧
    (∀ d, Maze.entryEscapeDir pt board = some d →
       (board.set_from_pair (pt.pair.add (Pair.fromDirection d)) Tile.Entry = none →
         Maze.add_maze_entry pt board = board) ∧
       (∀ b', board.set_from_pair (pt.pair.add (Pair.fromDirection d)) Tile.Entry
           = some b' →
         Maze.add_maze_entry pt board = b' ∧
         b'.get_from_pair (pt.pair.add (Pair.fromDirection d)) = some Tile.Entry ∧
         ∀ q, q ≠ pt.pair.add (Pair.fromDirection d) →
           b'.get_from_pair q = board.get_from_pair q)) := by
  refine ⟨?_, ?_, ?_, ?_⟩
  · intro d d' hfind hlt
    unfold Maze.entryEscapeDir at hfind
    cases hU : (board.get_from_pair (pt.pair.add
        (Pair.smul CELL_STEP (Pair.fromDirection Direction.Up)))).isNone <;>
      cases hR : (board.get_from_pair (pt.pair.add
        (Pair.smul CELL_STEP (Pair.fromDirection Direction.Right)))).isNone <;>
      cases hD : (board.get_from_pair (pt.pair.add
        (Pair.smul CELL_STEP (Pair.fromDirection Direction.Down)))).isNone <;>
      cases hL : (board.get_from_pair (pt.pair.add
        (Pair.smul CELL_STEP (Pair.fromDirection Direction.Left)))).isNone <;>
      simp only [Direction.iter, List.find?, hU, hR, hD, hL] at hfind <;>
      first
        | (cases hfind; cases d' <;>
            simp_all [Direction.enumIndex])
        | (cases d' <;> simp_all [Direction.enumIndex])
  · intro d hfind
    unfold Maze.entryEscapeDir at hfind
    have := List.find?_some hfind
    exact of_decide_eq_true (by simpa using this)
  · intro hfind
    rw [Maze.add_maze_entry_eq, hfind]
  · intro d hfind
    constructor
    · intro hset
      rw [Maze.add_maze_entry_eq, hfind]
      simp only []
      rw [hset]
    · intro b' hset
      refine ⟨by rw [Maze.add_maze_entry_eq, hfind]; simp only []; rw [hset], ?_, ?_⟩
      · rw [Board.get_from_pair_set_from_pair hset, if_pos rfl]
      · intro q hq
        rw [Board.get_from_pair_set_from_pair hset, if_neg hq]

/-- C10 witness: on the 9×9 board of `Board::new(4,4)` the interior cell
`(3,3)` has no escaping direction, so `add_maze_entry` leaves the board
unchanged; at the corner cell `(1,1)` of `Board::new(2,2)` the first
escaping direction in enumeration order is `Up`, so the entry is cut at
`(0,1)`. -/
theorem add_maze_entry_at_most_one_tile_witness :
    Maze.add_maze_entry ⟨⟨3, 3⟩⟩ (Board.new Tile 4 4) = Board.new Tile 4 4 ∧
    (Maze.add_maze_entry ⟨⟨1, 1⟩⟩ (Board.new Tile 2 2)).get_from_pair ⟨0, 1⟩
      = some Tile.Entry := by
  constructor
  · exact (add_maze_entry_at_most_one_tile ⟨⟨3, 3⟩⟩ (Board.new Tile 4 4)).2.2.1
      (by decide)
  · cases hS : (Board.new Tile 2 2).set_from_pair ⟨0, 1⟩ Tile.Entry with
    | none => exact absurd hS (by decide)
    | some b' =>
      have h := ((add_maze_entry_at_most_one_tile ⟨⟨1, 1⟩⟩
        (Board.new Tile 2 2)).2.2.2 Direction.Up (by decide)).2 b' hS
      rw [h.1]
      exact h.2.1

/-- The number of `Unvisited` entries is bounded by the total number of
grid entries. -/
theorem Maze.unvisitedCount_le_size (visited : Board VisitStatus) :
    Maze.unvisitedCount visited ≤ (visited.grid.map List.length).sum := by
  unfold Maze.unvisitedCount
  apply List.sum_le_sum
  intro row _
  exact List.countP_le_length _

/-- C7: the carve loop terminates.  Fuel `2·(unvisited count) + stack
length` suffices (the fuel-limited body iteration already reaches the
loop's result), the unvisited count is bounded by the finite grid size,
and each iteration either marks the previously `Unvisited` two-step
neighbour `Visited` (candidate branch, strictly shrinking the unvisited
count) or pops the stack (backtrack branch, strictly shrinking the stack
while never growing the unvisited count). -/
theorem carve_loop_terminates :
    ∀ (board : Board Tile) (visited : Board VisitStatus) (stack : List Pair)
      (o : Nat → Nat) (k : Nat) (fuel : Nat),
      2 * Maze.unvisitedCount visited + stack.length < fuel →
      (Maze.carveLoopFuel fuel board visited stack o k
         = Maze.carveLoop board visited stack o k) ∧
      Maze.unvisitedCount visited ≤ (visited.grid.map List.length).sum ∧
      (∀ popped rest, stack = popped :: rest →
        (∀ d, Maze.choose_random_unvisited_direction popped visited (o k) = some d →
           visited.get_from_pair
               (popped.add (Pair.smul CELL_STEP (Pair.fromDirection d)))
             = some VisitStatus.Unvisited ∧
           ∀ b1 v1, Maze.visit_and_mark_as_path board visited
               (popped.add (Pair.smul CELL_STEP (Pair.fromDirection d)))
               = some (b1, v1) →
             Maze.unvisitedCount v1 < Maze.unvisitedCount visited) ∧
        (Maze.choose_random_unvisited_direction popped visited (o k) = none →
           rest.length < stack.length ∧
           ∀ b1 v1, Maze.visit_and_mark_as_path board visited popped
               = some (b1, v1) →
             Maze.unvisitedCount v1 ≤ Maze.unvisitedCount visited)) := by
  intro board visited stack o k fuel h
  refine ⟨Maze.carveLoopFuel_sufficient fuel board visited stack o k h,
    Maze.unvisitedCount_le_size visited, ?_⟩
  intro popped rest hstack
  constructor
  · intro d hd
    have hu := Maze.choose_random_unvisited_direction_spec hd
    refine ⟨hu, ?_⟩
    intro b1 v1 hv
    exact Maze.unvisitedCount_set_lt
      ((Maze.visit_and_mark_as_path_eq_some.mp hv).2) hu
  · intro _
    subst hstack
    refine ⟨by simp, ?_⟩
    intro b1 v1 hv
    exact Maze.unvisitedCount_set_le
      ((Maze.visit_and_mark_as_path_eq_some.mp hv).2)

/-- C7 witness: a concrete instance of the termination bound on the 3×3
board of a 1×1 maze with an empty stack. -/
theorem carve_loop_terminates_witness :
    Maze.carveLoopFuel 19 (Board.new Tile 1 1) (Board.new VisitStatus 1 1) []
        (fun _ => 0) 0
      = Maze.carveLoop (Board.new Tile 1 1) (Board.new VisitStatus 1 1) []
        (fun _ => 0) 0 ∧
    Maze.unvisitedCount (Board.new VisitStatus 1 1)
      ≤ ((Board.new VisitStatus 1 1).grid.map List.length).sum :=
  ⟨(carve_loop_terminates (Board.new Tile 1 1) (Board.new VisitStatus 1 1) []
      (fun _ => 0) 0 19 (by decide)).1,
   (carve_loop_terminates (Board.new Tile 1 1) (Board.new VisitStatus 1 1) []
      (fun _ => 0) 0 19 (by decide)).2.1⟩

/-- Extract the `ok` payload (used only to name concrete results). -/
def RRes.getOk {α : Type} [Inhabited α] : RRes α → α
  | RRes.ok a => a
  | _ => default

instance : Inhabited Maze := ⟨{ board := { grid := [], cell_width := 0, cell_height := 0 } }⟩

/-- Reading both boards after `visit_and_mark_as_path`: the written pair
holds `Path` / `Visited`, everything else is unchanged. -/
theorem Maze.visit_and_mark_as_path_get {board b' : Board Tile}
    {visited v' : Board VisitStatus} {pair : Pair}
    (h : Maze.visit_and_mark_as_path board visited pair = some (b', v')) :
    (∀ q, b'.get_from_pair q
        = if q = pair then some Tile.Path else board.get_from_pair q) ∧
    (∀ q, v'.get_from_pair q
        = if q = pair then some VisitStatus.Visited else visited.get_from_pair q) := by
  obtain ⟨hb, hv⟩ := Maze.visit_and_mark_as_path_eq_some.mp h
  exact ⟨Board.get_from_pair_set_from_pair hb,
    Board.get_from_pair_set_from_pair hv⟩

/-- Reading after `add_maze_entry`: each tile is unchanged, or it is the
`Entry` written one step from the perimeter pair in some direction. -/
theorem Maze.add_maze_entry_get (pt : Perimeter) (board : Board Tile)
    (q : Pair) :
    (Maze.add_maze_entry pt board).get_from_pair q = board.get_from_pair q ∨
      ((Maze.add_maze_entry pt board).get_from_pair q = some Tile.Entry ∧
        ∃ d, q = pt.pair.add (Pair.fromDirection d)) := by
  rw [Maze.add_maze_entry_eq]
  cases hfind : Maze.entryEscapeDir pt board with
  | none => exact Or.inl rfl
  | some d =>
    simp only []
    cases hset : board.set_from_pair (pt.pair.add (Pair.fromDirection d))
        Tile.Entry with
    | none => exact Or.inl rfl
    | some b' =>
      rw [Board.get_from_pair_set_from_pair hset q]
      by_cases hq : q = pt.pair.add (Pair.fromDirection d)
      · exact Or.inr ⟨by rw [if_pos hq], d, hq⟩
      · exact Or.inl (by rw [if_neg hq])

/-- Every entry of a fresh board is the default value. -/
theorem Board.new_get {T : Type} [Inhabited T] {height width : Nat} {q : Pair}
    {t : T} (h : (Board.new T height width).get_from_pair q = some t) :
    t = default := by
  obtain ⟨ri, row, ci, _, h2, _, h4⟩ := Board.get_from_pair_eq_some.mp h
  have hrow : row = List.replicate (Board.cell_position_to_index height) default :=
    List.eq_of_mem_replicate (List.getElem?_mem h2)
  subst hrow
  exact List.eq_of_mem_replicate (List.getElem?_mem h4)

/-- `cell_position_to_index` always produces an odd value. -/
theorem Board.cell_position_to_index_odd (position : Nat) :
    Board.cell_position_to_index position % 2 = 1 := by
  unfold Board.cell_position_to_index USIZE_MOD
  omega

/-- `unsigned_to_signed_cell` only produces odd non-negative values. -/
theorem unsigned_to_signed_cell_odd {v : Nat} {i : Int}
    (h : unsigned_to_signed_cell v = some i) : i % 2 = 1 ∧ 0 ≤ i := by
  unfold unsigned_to_signed_cell at h
  simp only [] at h
  split at h
  · cases h
    have hodd := Board.cell_position_to_index_odd v
    omega
  · cases h

theorem RRes.bind_eq_ok {α β : Type} {x : RRes α} {f : α → RRes β} {b : β} :
    RRes.bind x f = RRes.ok b ↔ ∃ a, x = RRes.ok a ∧ f a = RRes.ok b := by
  cases x <;> simp [RRes.bind]

theorem RRes.ofOption_eq_ok {α : Type} {x : Option α} {a : α} :
    RRes.ofOption x = RRes.ok a ↔ x = some a := by
  cases x <;> simp [RRes.ofOption]

theorem genRange_eq_ok {r max v : Nat} :
    genRange r max = RRes.ok v ↔ max ≠ 0 ∧ v = r % max := by
  unfold genRange
  split <;> simp_all [eq_comm]

theorem pick_random_cell_odd {r max : Nat} {i : Int}
    (h : pick_random_cell r max = RRes.ok i) : i % 2 = 1 ∧ 0 ≤ i := by
  unfold pick_random_cell at h
  rw [RRes.bind_eq_ok] at h
  obtain ⟨a, _, hf⟩ := h
  rw [RRes.ofOption_eq_ok] at hf
  exact unsigned_to_signed_cell_odd hf

/-- Any pair produced by `choose_perimeter_pair` has odd row and column. -/
theorem Maze.choose_perimeter_pair_odd {T : Type} {board : Board T}
    {sideR cellR : Nat} {pt : Perimeter}
    (h : Maze.choose_perimeter_pair board sideR cellR = RRes.ok pt) :
    pt.pair.row % 2 = 1 ∧ 0 ≤ pt.pair.row ∧
      pt.pair.col % 2 = 1 ∧ 0 ≤ pt.pair.col := by
  unfold Maze.choose_perimeter_pair at h
  cases hside : Direction.iter.getD (sideR % Direction.iter.length) default with
  | Down =>
    rw [hside] at h
    simp only [] at h
    rw [RRes.bind_eq_ok] at h
    obtain ⟨row, h1, h2⟩ := h
    rw [RRes.ofOption_eq_ok] at h1
    rw [RRes.bind_eq_ok] at h2
    obtain ⟨col, h3, h4⟩ := h2
    injection h4 with h4
    subst h4
    obtain ⟨ha, hb⟩ := unsigned_to_signed_cell_odd h1
    obtain ⟨hc, hd⟩ := pick_random_cell_odd h3
    exact ⟨ha, hb, hc, hd⟩
  | Left =>
    rw [hside] at h
    simp only [] at h
    rw [RRes.bind_eq_ok] at h
    obtain ⟨row, h1, h2⟩ := h
    rw [RRes.bind_eq_ok] at h2
    obtain ⟨col, h3, h4⟩ := h2
    rw [RRes.ofOption_eq_ok] at h3
    injection h4 with h4
    subst h4
    obtain ⟨ha, hb⟩ := pick_random_cell_odd h1
    obtain ⟨hc, hd⟩ := unsigned_to_signed_cell_odd h3
    exact ⟨ha, hb, hc, hd⟩
  | Up =>
    rw [hside] at h
    simp only [] at h
    rw [RRes.bind_eq_ok] at h
    obtain ⟨row, h1, h2⟩ := h
    rw [RRes.ofOption_eq_ok] at h1
    rw [RRes.bind_eq_ok] at h2
    obtain ⟨col, h3, h4⟩ := h2
    injection h4 with h4
    subst h4
    obtain ⟨ha, hb⟩ := unsigned_to_signed_cell_odd h1
    obtain ⟨hc, hd⟩ := pick_random_cell_odd h3
    exact ⟨ha, hb, hc, hd⟩
  | Right =>
    rw [hside] at h
    simp only [] at h
    rw [RRes.bind_eq_ok] at h
    obtain ⟨row, h1, h2⟩ := h
    rw [RRes.bind_eq_ok] at h2
    obtain ⟨col, h3, h4⟩ := h2
    rw [RRes.ofOption_eq_ok] at h3
    injection h4 with h4
    subst h4
    obtain ⟨ha, hb⟩ := pick_random_cell_odd h1
    obtain ⟨hc, hd⟩ := unsigned_to_signed_cell_odd h3
    exact ⟨ha, hb, hc, hd⟩

/-- Board evolution across the carve loop: a tile that ends as `Wall` was
already `Wall`, a tile that ends as `Entry` was already `Entry`, and a
position once `Visited` stays `Visited`. -/
theorem Maze.carveLoopFuel_board_evolution :
    ∀ (fuel : Nat) (board : Board Tile) (visited : Board VisitStatus)
      (stack : List Pair) (o : Nat → Nat) (k : Nat)
      (b' : Board Tile) (v' : Board VisitStatus) (k' : Nat),
      Maze.carveLoopFuel fuel board visited stack o k = some (b', v', k') →
      (∀ q, b'.get_from_pair q = some Tile.Wall →
        board.get_from_pair q = some Tile.Wall) ∧
      (∀ q, b'.get_from_pair q = some Tile.Entry →
        board.get_from_pair q = some Tile.Entry) ∧
      (∀ q, visited.get_from_pair q = some VisitStatus.Visited →
        v'.get_from_pair q = some VisitStatus.Visited) := by
  intro fuel
  induction fuel with
  | zero =>
    intro board visited stack o k b' v' k' h
    simp [Maze.carveLoopFuel] at h
  | succ fuel ih =>
    intro board visited stack o k b' v' k' h
    rw [Maze.carveLoopFuel_succ] at h
    cases stack with
    | nil =>
      injection h with h
      injection h with hb h
      injection h with hv hk
      subst hb; subst hv
      exact ⟨fun q hq => hq, fun q hq => hq, fun q hq => hq⟩
    | cons popped_pair rest =>
      simp only [] at h
      cases hd : Maze.choose_random_unvisited_direction popped_pair visited (o k) with
      | none =>
        rw [hd] at h
        simp only [] at h
        cases hvm : Maze.visit_and_mark_as_path board visited popped_pair with
        | none => rw [hvm] at h; simp at h
        | some r =>
          obtain ⟨board1, visited1⟩ := r
          rw [hvm] at h
          simp only [] at h
          obtain ⟨w1, w2⟩ := Maze.visit_and_mark_as_path_get hvm
          obtain ⟨m1, m2, m3⟩ := ih board1 visited1 rest o k b' v' k' h
          refine ⟨fun q hq => ?_, fun q hq => ?_, fun q hq => ?_⟩
          · have := m1 q hq
            rw [w1 q] at this
            by_cases hqp : q = popped_pair
            · rw [if_pos hqp] at this; cases this
            · rwa [if_neg hqp] at this
          · have := m2 q hq
            rw [w1 q] at this
            by_cases hqp : q = popped_pair
            · rw [if_pos hqp] at this; cases this
            · rwa [if_neg hqp] at this
          · refine m3 q ?_
            rw [w2 q]
            by_cases hqp : q = popped_pair
            · rw [if_pos hqp]
            · rwa [if_neg hqp]
      | some direction =>
        rw [hd] at h
        simp only [] at h
        cases hv : Maze.visit_and_mark_as_path board visited
            (popped_pair.add (Pair.smul CELL_STEP (Pair.fromDirection direction))) with
        | none => rw [hv] at h; simp at h
        | some r1 =>
          obtain ⟨board1, visited1⟩ := r1
          rw [hv] at h
          simp only [] at h
          cases hv2 : Maze.visit_and_mark_as_path board1 visited1
              (popped_pair.add (Pair.fromDirection direction)) with
          | none => rw [hv2] at h; simp at h
          | some r2 =>
            obtain ⟨board2, visited2⟩ := r2
            rw [hv2] at h
            simp only [] at h
            obtain ⟨w1, w2⟩ := Maze.visit_and_mark_as_path_get hv
            obtain ⟨w3, w4⟩ := Maze.visit_and_mark_as_path_get hv2
            obtain ⟨m1, m2, m3⟩ := ih board2 visited2 _ o (k + 1) b' v' k' h
            refine ⟨fun q hq => ?_, fun q hq => ?_, fun q hq => ?_⟩
            · have h2q := m1 q hq
              rw [w3 q] at h2q
              by_cases hq2 : q = popped_pair.add (Pair.fromDirection direction)
              · rw [if_pos hq2] at h2q; cases h2q
              · rw [if_neg hq2] at h2q
                rw [w1 q] at h2q
                by_cases hq1 : q = popped_pair.add
                    (Pair.smul CELL_STEP (Pair.fromDirection direction))
                · rw [if_pos hq1] at h2q; cases h2q
                · rwa [if_neg hq1] at h2q
            · have h2q := m2 q hq
              rw [w3 q] at h2q
              by_cases hq2 : q = popped_pair.add (Pair.fromDirection direction)
              · rw [if_pos hq2] at h2q; cases h2q
              · rw [if_neg hq2] at h2q
                rw [w1 q] at h2q
                by_cases hq1 : q = popped_pair.add
                    (Pair.smul CELL_STEP (Pair.fromDirection direction))
                · rw [if_pos hq1] at h2q; cases h2q
                · rwa [if_neg hq1] at h2q
            · refine m3 q ?_
              rw [w4 q]
              by_cases hq2 : q = popped_pair.add (Pair.fromDirection direction)
              · rw [if_pos hq2]
              · rw [if_neg hq2, w2 q]
                by_cases hq1 : q = popped_pair.add
                    (Pair.smul CELL_STEP (Pair.fromDirection direction))
                · rw [if_pos hq1]
                · rwa [if_neg hq1]

/-- Success decomposition of `from_backtracking`: a maze comes back
exactly when every stage (start perimeter pick, seed visit, carve loop,
end perimeter pick, end visit) succeeded, and then it is the final board
with the exit entry cut. -/
theorem Maze.from_backtracking_ok_iff {height width : Nat} {o : Nat → Nat}
    {m : Maze} :
    Maze.from_backtracking height width o = RRes.ok m ↔
      ∃ start board2 visited2 board3 visited3 k e board4 visited4,
        Maze.choose_perimeter_pair (Board.new Tile height width) (o 0) (o 1)
          = RRes.ok start ∧
        Maze.visit_and_mark_as_path
            (Maze.add_maze_entry start (Board.new Tile height width))
            (Board.new VisitStatus height width) start.pair
          = some (board2, visited2) ∧
        Maze.carveLoop board2 visited2 [start.pair] o 2
          = some (board3, visited3, k) ∧
        Maze.choose_perimeter_pair board3 (o k) (o (k + 1)) = RRes.ok e ∧
        Maze.visit_and_mark_as_path board3 visited3 e.pair
          = some (board4, visited4) ∧
        m = { board := Maze.add_maze_entry e board4 } := by
  unfold Maze.from_backtracking
  simp only []
  cases h1 : Maze.choose_perimeter_pair (Board.new Tile height width)
      (o 0) (o 1) with
  | panicked => simp
  | fail => simp
  | ok start =>
    simp only []
    cases h2 : Maze.visit_and_mark_as_path
        (Maze.add_maze_entry start (Board.new Tile height width))
        (Board.new VisitStatus height width) start.pair with
    | none =>
      simp only []
      constructor
      · intro hh; simp at hh
      · rintro ⟨start', b2, v2, b3, v3, k, e, b4, v4, g1, g2, -⟩
        injection g1 with g1
        subst g1
        rw [h2] at g2
        simp at g2
    | some r2 =>
      obtain ⟨board2, visited2⟩ := r2
      simp only []
      cases h3 : Maze.carveLoop board2 visited2 [start.pair] o 2 with
      | none =>
        simp only []
        constructor
        · intro hh; simp at hh
        · rintro ⟨start', b2, v2, b3, v3, k, e, b4, v4, g1, g2, g3, -⟩
          injection g1 with g1
          subst g1
          rw [h2] at g2
          injection g2 with g2
          injection g2 with g2a g2b
          subst g2a; subst g2b
          rw [h3] at g3
          simp at g3
      | some r3 =>
        obtain ⟨board3, visited3, k⟩ := r3
        simp only []
        cases h4 : Maze.choose_perimeter_pair board3 (o k) (o (k + 1)) with
        | panicked =>
          simp only []
          constructor
          · intro hh; simp at hh
          · rintro ⟨start', b2, v2, b3, v3, k', e, b4, v4, g1, g2, g3, g4, -⟩
            injection g1 with g1
            subst g1
            rw [h2] at g2
            injection g2 with g2
            injection g2 with g2a g2b
            subst g2a; subst g2b
            rw [h3] at g3
            injection g3 with g3
            injection g3 with g3a g3b
            injection g3b with g3b g3c
            subst g3a; subst g3b; subst g3c
            rw [h4] at g4
            simp at g4
        | fail =>
          simp only []
          constructor
          · intro hh; simp at hh
          · rintro ⟨start', b2, v2, b3, v3, k', e, b4, v4, g1, g2, g3, g4, -⟩
            injection g1 with g1
            subst g1
            rw [h2] at g2
            injection g2 with g2
            injection g2 with g2a g2b
            subst g2a; subst g2b
            rw [h3] at g3
            injection g3 with g3
            injection g3 with g3a g3b
            injection g3b with g3b g3c
            subst g3a; subst g3b; subst g3c
            rw [h4] at g4
            simp at g4
        | ok e =>
          simp only []
          cases h5 : Maze.visit_and_mark_as_path board3 visited3 e.pair with
          | none =>
            simp only []
            constructor
            · intro hh; simp at hh
            · rintro ⟨start', b2, v2, b3, v3, k', e', b4, v4, g1, g2, g3, g4, g5, -⟩
              injection g1 with g1
              subst g1
              rw [h2] at g2
              injection g2 with g2
              injection g2 with g2a g2b
              subst g2a; subst g2b
              rw [h3] at g3
              injection g3 with g3
              injection g3 with g3a g3b
              injection g3b with g3b g3c
              subst g3a; subst g3b; subst g3c
              rw [h4] at g4
              injection g4 with g4
              subst g4
              rw [h5] at g5
              simp at g5
          | some r5 =>
            obtain ⟨board4, visited4⟩ := r5
            simp only []
            constructor
            · intro hh
              injection hh with hh
              exact ⟨start, board2, visited2, board3, visited3, k, e,
                board4, visited4, rfl, h2, h3, h4, h5, by rw [hh]⟩
            · rintro ⟨start', b2, v2, b3, v3, k', e', b4, v4, g1, g2, g3, g4, g5, g6⟩
              injection g1 with g1
              subst g1
              rw [h2] at g2
              injection g2 with g2
              injection g2 with g2a g2b
              subst g2a; subst g2b
              rw [h3] at g3
              injection g3 with g3
              injection g3 with g3a g3b
              injection g3b with g3b g3c
              subst g3a; subst g3b; subst g3c
              rw [h4] at g4
              injection g4 with g4
              subst g4
              rw [h5] at g5
              injection g5 with g5
              injection g5 with g5a g5b
              subst g5a; subst g5b
              rw [g6]

/-- C4: generation is all-or-nothing.  A maze is returned exactly when
every stage succeeded — start perimeter pick, seed visit, carve loop, end
perimeter pick, end visit — and then it is the completed final board; when
any stage fails the whole generation yields no maze (`fail`, or `panicked`
for the empty-range draw), never a partial one. -/
theorem from_backtracking_all_or_nothing (height width : Nat) (o : Nat → Nat) :
    (∀ m, Maze.from_backtracking height width o = RRes.ok m ↔
       ∃ start board2 visited2 board3 visited3 k e board4 visited4,
         Maze.choose_perimeter_pair (Board.new Tile height width) (o 0) (o 1)
           = RRes.ok start ∧
         Maze.visit_and_mark_as_path
             (Maze.add_maze_entry start (Board.new Tile height width))
             (Board.new VisitStatus height width) start.pair
           = some (board2, visited2) ∧
         Maze.carveLoop board2 visited2 [start.pair] o 2
           = some (board3, visited3, k) ∧
         Maze.choose_perimeter_pair board3 (o k) (o (k + 1)) = RRes.ok e ∧
         Maze.visit_and_mark_as_path board3 visited3 e.pair
           = some (board4, visited4) ∧
         m = { board := Maze.add_maze_entry e board4 }) ∧
    (Maze.from_backtracking height width o = RRes.fail ∨
     Maze.from_backtracking height width o = RRes.panicked ∨
     ∃ m, Maze.from_backtracking height width o = RRes.ok m) := by
  constructor
  · intro m
    exact Maze.from_backtracking_ok_iff
  · cases h : Maze.from_backtracking height width o with
    | panicked => exact Or.inr (Or.inl rfl)
    | fail => exact Or.inl rfl
    | ok m => exact Or.inr (Or.inr ⟨m, rfl⟩)

/-- C8: writes are monotonic throughout generation.  `visit_and_mark_as_path`
writes exactly `Path`/`Visited` at its pair; `add_maze_entry` leaves a tile
unchanged or makes it `Entry`; and across any whole run of the carve loop a
tile that ends `Wall` was always `Wall` (no regression to `Wall`) and a
`Visited` position stays `Visited` (no regression to `Unvisited`). -/
theorem generation_writes_monotonic :
    (∀ (board b' : Board Tile) (visited v' : Board VisitStatus) (pair : Pair),
       Maze.visit_and_mark_as_path board visited pair = some (b', v') →
       b'.get_from_pair pair = some Tile.Path ∧
       v'.get_from_pair pair = some VisitStatus.Visited ∧
       (∀ q, b'.get_from_pair q = some Tile.Wall →
         board.get_from_pair q = some Tile.Wall) ∧
       (∀ q, visited.get_from_pair q = some VisitStatus.Visited →
         v'.get_from_pair q = some VisitStatus.Visited)) ∧
    (∀ (pt : Perimeter) (board : Board Tile) (q : Pair),
       (Maze.add_maze_entry pt board).get_from_pair q = board.get_from_pair q ∨
         (Maze.add_maze_entry pt board).get_from_pair q = some Tile.Entry) ∧
    (∀ (board : Board Tile) (visited : Board VisitStatus) (stack : List Pair)
       (o : Nat → Nat) (k : Nat) (b' : Board Tile) (v' : Board VisitStatus)
       (k' : Nat),
       Maze.carveLoop board visited stack o k = some (b', v', k') →
       (∀ q, b'.get_from_pair q = some Tile.Wall →
         board.get_from_pair q = some Tile.Wall) ∧
       (∀ q, visited.get_from_pair q = some VisitStatus.Visited →
         v'.get_from_pair q = some VisitStatus.Visited)) := by
  refine ⟨?_, ?_, ?_⟩
  · intro board b' visited v' pair h
    obtain ⟨w1, w2⟩ := Maze.visit_and_mark_as_path_get h
    refine ⟨by rw [w1, if_pos rfl], by rw [w2, if_pos rfl], ?_, ?_⟩
    · intro q hq
      rw [w1 q] at hq
      by_cases hqp : q = pair
      · rw [if_pos hqp] at hq; cases hq
      · rwa [if_neg hqp] at hq
    · intro q hq
      rw [w2 q]
      by_cases hqp : q = pair
      · rw [if_pos hqp]
      · rwa [if_neg hqp]
  · intro pt board q
    rcases Maze.add_maze_entry_get pt board q with h | ⟨h, -⟩
    · exact Or.inl h
    · exact Or.inr h
  · intro board visited stack o k b' v' k' h
    have := Maze.carveLoopFuel_board_evolution
      (2 * Maze.unvisitedCount visited + stack.length + 1)
      board visited stack o k b' v' k' h
    exact ⟨this.1, this.2.2⟩

/-- C8 witness: the seed write on the 3×3 board of a 1×1 maze makes the
center tile `Path`. -/
theorem generation_writes_monotonic_witness :
    (Maze.visit_and_mark_as_path (Board.new Tile 1 1)
        (Board.new VisitStatus 1 1) ⟨1, 1⟩).map
        (fun r => r.1.get_from_pair ⟨1, 1⟩)
      = some (some Tile.Path) := by
  cases hv : Maze.visit_and_mark_as_path (Board.new Tile 1 1)
      (Board.new VisitStatus 1 1) ⟨1, 1⟩ with
  | none => exact absurd hv (by decide)
  | some r =>
    obtain ⟨b1, v1⟩ := r
    have h := (generation_writes_monotonic.1 (Board.new Tile 1 1) b1
      (Board.new VisitStatus 1 1) v1 ⟨1, 1⟩ hv).1
    simp [Option.map, h]

/-- A pair one unit step away from a pair with odd row and odd column
cannot have both coordinates even. -/
theorem Pair.add_unit_not_both_even {pt q : Pair} {d : Direction}
    (hr : pt.row % 2 = 1) (hc : pt.col % 2 = 1)
    (hq : q = pt.add (Pair.fromDirection d)) :
    ¬ (q.row % 2 = 0 ∧ q.col % 2 = 0) := by
  rintro ⟨h0, h1⟩
  subst hq
  cases d <;> simp [Pair.add, Pair.fromDirection] at h0 h1 <;> omega

/-- C9: in every maze produced by `from_backtracking`, a tile whose raw row
and column are both even and which lies strictly inside the outer border is
`Wall` or `Path`, never `Entry`. -/
theorem generated_even_interior_never_entry :
    ∀ (height width : Nat) (o : Nat → Nat) (m : Maze),
      Maze.from_backtracking height width o = RRes.ok m →
      ∀ q t, q.row % 2 = 0 → q.col % 2 = 0 →
        0 < q.row → q.row < (m.board.grid.length : Int) - 1 →
        0 < q.col → q.col < ((m.board.grid.getD q.row.toNat []).length : Int) - 1 →
        m.board.get_from_pair q = some t → t = Tile.Wall ∨ t = Tile.Path := by
  intro height width o m hok q t hrow hcol _ _ _ _ hget
  cases t with
  | Wall => exact Or.inl rfl
  | Path => exact Or.inr rfl
  | Entry =>
    exfalso
    obtain ⟨start, board2, visited2, board3, visited3, k, e, board4, visited4,
      h1, h2, h3, h4, h5, h6⟩ := Maze.from_backtracking_ok_iff.mp hok
    subst h6
    obtain ⟨sr1, -, sc1, -⟩ := Maze.choose_perimeter_pair_odd h1
    obtain ⟨er1, -, ec1, -⟩ := Maze.choose_perimeter_pair_odd h4
    rcases Maze.add_maze_entry_get e board4 q with hsame | ⟨-, d, hq⟩
    · rw [hsame] at hget
      obtain ⟨w1, -⟩ := Maze.visit_and_mark_as_path_get h5
      rw [w1 q] at hget
      by_cases hqe : q = e.pair
      · rw [if_pos hqe] at hget; cases hget
      · rw [if_neg hqe] at hget
        have hb2 := (Maze.carveLoopFuel_board_evolution
          (2 * Maze.unvisitedCount visited2 + [start.pair].length + 1)
          board2 visited2 [start.pair] o 2 board3 visited3 k h3).2.1 q hget
        obtain ⟨w2, -⟩ := Maze.visit_and_mark_as_path_get h2
        rw [w2 q] at hb2
        by_cases hqs : q = start.pair
        · rw [if_pos hqs] at hb2; cases hb2
        · rw [if_neg hqs] at hb2
          rcases Maze.add_maze_entry_get start (Board.new Tile height width) q
            with hsame2 | ⟨-, d2, hq2⟩
          · rw [hsame2] at hb2
            cases Board.new_get hb2
          · exact Pair.add_unit_not_both_even sr1 sc1 hq2 ⟨hrow, hcol⟩
    · exact Pair.add_unit_not_both_even er1 ec1 hq ⟨hrow, hcol⟩

/-- C9 witness: a successful 2×2 generation has the interior even/even
tile `(2,2)` equal to `Wall`. -/
theorem generated_even_interior_never_entry_witness :
    (RRes.getOk (Maze.from_backtracking 2 2 (fun _ => 0))).board.get_from_pair
        ⟨2, 2⟩ = some Tile.Wall ∧
    (Tile.Wall = Tile.Wall ∨ Tile.Wall = Tile.Path) :=
  ⟨by decide,
   generated_even_interior_never_entry 2 2 (fun _ => 0)
     (RRes.getOk (Maze.from_backtracking 2 2 (fun _ => 0))) (by decide)
     ⟨2, 2⟩ Tile.Wall (by decide) (by decide) (by decide) (by decide)
     (by decide) (by decide) (by decide)⟩

/-! ### The cell graph and the carved-edge graph (for the spanning-tree
property of the backtracking carve) -/

/-- A raw position that is a cell center: both coordinates odd. -/
def isCellPos (p : Pair) : Prop := p.row % 2 = 1 ∧ p.col % 2 = 1

instance (p : Pair) : Decidable (isCellPos p) := by
  unfold isCellPos
  infer_instance

/-- Adjacency in the cell graph over a board: both positions on the board
and the second a two-cell-step neighbour of the first. -/
def cellAdj {T : Type} (b : Board T) (p q : Pair) : Prop :=
  (b.get_from_pair p).isSome = true ∧ (b.get_from_pair q).isSome = true ∧
    ∃ d, q = p.add (Pair.smul CELL_STEP (Pair.fromDirection d))

/-- Adjacency through the carved-edge list. -/
def edgeAdj (E : List (Pair × Pair)) (p q : Pair) : Prop :=
  (p, q) ∈ E ∨ (q, p) ∈ E

/-- A simple cycle through the carved edges: at least three distinct
vertices `p :: l`, consecutive ones adjacent, and the last adjacent back
to `p`. -/
def IsCycle (E : List (Pair × Pair)) (p : Pair) (l : List Pair) : Prop :=
  2 ≤ l.length ∧ (p :: l).Nodup ∧ List.Chain (edgeAdj E) p l ∧
    ∃ z, l.getLast? = some z ∧ edgeAdj E z p

/-- The carved passages contain no simple cycle. -/
def NoCycle (E : List (Pair × Pair)) : Prop := ∀ p l, ¬ IsCycle E p l

/-- All rows of the board have width `L`. -/
def UniformWidth {T : Type} (b : Board T) (L : Nat) : Prop :=
  ∀ row ∈ b.grid, row.length = L

theorem edgeAdj_symm {E : List (Pair × Pair)} {p q : Pair}
    (h : edgeAdj E p q) : edgeAdj E q p := h.symm

theorem edgeAdj_mono {E : List (Pair × Pair)} (e : Pair × Pair) {p q : Pair}
    (h : edgeAdj E p q) : edgeAdj (e :: E) p q := by
  rcases h with h | h
  · exact Or.inl (List.mem_cons_of_mem _ h)
  · exact Or.inr (List.mem_cons_of_mem _ h)

theorem reflTransGen_edgeAdj_mono {E : List (Pair × Pair)} (e : Pair × Pair)
    {p q : Pair} (h : Relation.ReflTransGen (edgeAdj E) p q) :
    Relation.ReflTransGen (edgeAdj (e :: E)) p q := by
  induction h with
  | refl => exact Relation.ReflTransGen.refl
  | tail _ hstep ih => exact Relation.ReflTransGen.tail ih (edgeAdj_mono e hstep)

/-- Two-cell steps preserve cell parity. -/
theorem isCellPos_add_step {p : Pair} (d : Direction) (h : isCellPos p) :
    isCellPos (p.add (Pair.smul CELL_STEP (Pair.fromDirection d))) := by
  obtain ⟨h1, h2⟩ := h
  cases d <;>
    simp [isCellPos, Pair.add, Pair.smul, Pair.fromDirection, CELL_STEP] <;>
    omega

/-- The in-between position of a carve step is not a cell center. -/
theorem between_not_cellPos {p : Pair} (d : Direction) (h : isCellPos p) :
    ¬ isCellPos (p.add (Pair.fromDirection d)) := by
  obtain ⟨h1, h2⟩ := h
  cases d <;>
    simp [isCellPos, Pair.add, Pair.fromDirection] <;>
    omega

theorem step_ne_self {p : Pair} (d : Direction) :
    p.add (Pair.smul CELL_STEP (Pair.fromDirection d)) ≠ p := by
  obtain ⟨pr, pc⟩ := p
  cases d <;>
    simp [Pair.add, Pair.smul, Pair.fromDirection, CELL_STEP, Pair.mk.injEq]

theorem between_ne_step {p : Pair} (d : Direction) :
    p.add (Pair.fromDirection d)
      ≠ p.add (Pair.smul CELL_STEP (Pair.fromDirection d)) := by
  obtain ⟨pr, pc⟩ := p
  cases d <;>
    simp [Pair.add, Pair.smul, Pair.fromDirection, CELL_STEP, Pair.mk.injEq]

theorem between_ne_self {p : Pair} (d : Direction) :
    p.add (Pair.fromDirection d) ≠ p := by
  obtain ⟨pr, pc⟩ := p
  cases d <;>
    simp [Pair.add, Pair.fromDirection, Pair.mk.injEq]

/-- A successful write leaves the shape of the board (which positions are
readable) unchanged. -/
theorem Board.set_from_pair_isSome_pointwise {T : Type} {b b' : Board T}
    {p : Pair} {v : T} (h : b.set_from_pair p v = some b') (q : Pair) :
    (b'.get_from_pair q).isSome = (b.get_from_pair q).isSome := by
  rw [Board.get_from_pair_set_from_pair h q]
  by_cases hq : q = p
  · rw [if_pos hq]
    obtain ⟨x, hx⟩ := Board.set_from_pair_isSome_get h
    rw [hq, hx]
    rfl
  · rw [if_neg hq]

/-- Fresh boards of any two element types have the same shape. -/
theorem Board.new_isSome_pointwise (T1 T2 : Type) [Inhabited T1] [Inhabited T2]
    (height width : Nat) (q : Pair) :
    ((Board.new T1 height width).get_from_pair q).isSome
      = ((Board.new T2 height width).get_from_pair q).isSome := by
  unfold Board.get_from_pair Board.new
  cases usizeTryFrom q.row with
  | none => rfl
  | some ri =>
    simp only [List.getElem?_replicate]
    by_cases hri : ri < Board.cell_position_to_index width
    · rw [if_pos hri, if_pos hri]
      cases usizeTryFrom q.col with
      | none => rfl
      | some ci =>
        simp only [List.getElem?_replicate]
        by_cases hci : ci < Board.cell_position_to_index height
        · rw [if_pos hci, if_pos hci]
          rfl
        · rw [if_neg hci, if_neg hci]
          rfl
    · rw [if_neg hri, if_neg hri]
      rfl

/-- `add_maze_entry` leaves the shape of the board unchanged. -/
theorem Maze.add_maze_entry_isSome_pointwise (pt : Perimeter)
    (board : Board Tile) (q : Pair) :
    ((Maze.add_maze_entry pt board).get_from_pair q).isSome
      = (board.get_from_pair q).isSome := by
  rw [Maze.add_maze_entry_eq]
  cases Maze.entryEscapeDir pt board with
  | none => rfl
  | some d =>
    simp only []
    cases hset : board.set_from_pair (pt.pair.add (Pair.fromDirection d))
        Tile.Entry with
    | none => rfl
    | some b' => exact Board.set_from_pair_isSome_pointwise hset q

/-- A successful write preserves uniform row width. -/
theorem Board.set_from_pair_uniformWidth {T : Type} {b b' : Board T}
    {p : Pair} {v : T} {L : Nat} (h : b.set_from_pair p v = some b')
    (hu : UniformWidth b L) : UniformWidth b' L := by
  rw [Board.set_from_pair_eq_some] at h
  obtain ⟨ri, row, ci, x, _, h2, _, _, h5⟩ := h
  subst h5
  intro r hr
  rcases List.mem_or_eq_of_mem_set hr with hmem | heq
  · exact hu r hmem
  · rw [heq, List.length_set]
    exact hu row (List.getElem?_mem h2)

theorem Board.new_uniformWidth (T : Type) [Inhabited T] (height width : Nat) :
    UniformWidth (Board.new T height width)
      (Board.cell_position_to_index height) := by
  intro row hrow
  rw [List.eq_of_mem_replicate hrow]
  exact List.length_replicate _ _

theorem noCycle_nil : NoCycle [] := by
  rintro p l ⟨hlen, -, hchain, -⟩
  cases l with
  | nil => simp at hlen
  | cons x l' =>
    rcases (List.chain_cons.mp hchain).1 with h | h <;> simp at h

/-- A chain can be downgraded along an implication that may use membership
of both endpoints in the chain. -/
theorem chain_imp_of_mem {R R' : Pair → Pair → Prop} :
    ∀ {p : Pair} {l : List Pair}, List.Chain R p l →
      (∀ x y, x ∈ p :: l → y ∈ p :: l → R x y → R' x y) →
      List.Chain R' p l := by
  intro p l
  induction l generalizing p with
  | nil => intro _ _; exact List.Chain.nil
  | cons b l ih =>
    intro hchain himp
    obtain ⟨hpb, hrest⟩ := List.chain_cons.mp hchain
    refine List.chain_cons.mpr ⟨himp p b (by simp) (by simp) hpb, ih hrest ?_⟩
    intro x y hx hy
    exact himp x y (List.mem_cons_of_mem p hx) (List.mem_cons_of_mem p hy)

/-- In `(a, b) :: E` with `b` fresh for `E`, the only neighbour of `b`
is `a`. -/
theorem edgeAdj_fresh_elim {E : List (Pair × Pair)} {a b u v : Pair}
    (hab : a ≠ b) (hfresh : ∀ e ∈ E, e.1 ≠ b ∧ e.2 ≠ b)
    (h : edgeAdj ((a, b) :: E) u v) :
    (u = b → v = a) ∧ (v = b → u = a) := by
  rcases h with h | h <;> rcases List.mem_cons.mp h with h | h
  · injection h with h1 h2
    exact ⟨fun hub => absurd (h1.symm.trans hub) hab, fun _ => h1⟩
  · have := hfresh _ h
    exact ⟨fun hub => absurd hub this.1, fun hvb => absurd hvb this.2⟩
  · injection h with h1 h2
    exact ⟨fun _ => h1, fun hvb => absurd (h1.symm.trans hvb) hab⟩
  · have := hfresh _ h
    exact ⟨fun hub => absurd hub this.2, fun hvb => absurd hvb this.1⟩

/-- An edge step of `(a, b) :: E` avoiding `b` is an edge step of `E`. -/
theorem edgeAdj_fresh_downgrade {E : List (Pair × Pair)} {a b u v : Pair}
    (h : edgeAdj ((a, b) :: E) u v) (hu : u ≠ b) (hv : v ≠ b) :
    edgeAdj E u v := by
  rcases h with h | h <;> rcases List.mem_cons.mp h with h | h
  · injection h with h1 h2
    exact absurd h2 hv
  · exact Or.inl h
  · injection h with h1 h2
    exact absurd h2 hu
  · exact Or.inr h

/-- The last chain step: a chain from `p` through `l ++ [b]` relates the
last element of `p :: l` to `b`. -/
theorem chain_last_step {R : Pair → Pair → Prop} :
    ∀ {p : Pair} {l : List Pair} {b : Pair}, List.Chain R p (l ++ [b]) →
      ∃ u, (p :: l).getLast? = some u ∧ R u b := by
  intro p l
  induction l generalizing p with
  | nil =>
    intro b hchain
    exact ⟨p, rfl, (List.chain_cons.mp hchain).1⟩
  | cons x l ih =>
    intro b hchain
    obtain ⟨-, hrest⟩ := List.chain_cons.mp hchain
    obtain ⟨u, hu, hub⟩ := ih hrest
    exact ⟨u, by rw [List.getLast?_cons_cons]; exact hu, hub⟩

/-- Adding a pendant edge to a fresh vertex creates no cycle. -/
theorem noCycle_cons {E : List (Pair × Pair)} {a b : Pair} (hnc : NoCycle E)
    (hab : a ≠ b) (hfresh : ∀ e ∈ E, e.1 ≠ b ∧ e.2 ≠ b) :
    NoCycle ((a, b) :: E) := by
  rintro p l ⟨hlen, hnd, hchain, z, hz, hzp⟩
  by_cases hb : b ∈ p :: l
  · rcases List.mem_cons.mp hb with hbp | hbl
    · -- the fresh vertex is the cycle's base point
      subst hbp
      cases l with
      | nil => simp at hlen
      | cons x l' =>
        have hx : x = a :=
          ((edgeAdj_fresh_elim hab hfresh (List.chain_cons.mp hchain).1).1 rfl)
        have hzz : z = a :=
          ((edgeAdj_fresh_elim hab hfresh hzp).2 rfl)
        cases l' with
        | nil => simp at hlen
        | cons y l2 =>
          have hzmem : z ∈ y :: l2 := by
            rw [List.getLast?_cons_cons] at hz
            exact List.mem_of_mem_getLast? hz
          have hnd2 := (List.nodup_cons.mp hnd).2
          have := (List.nodup_cons.mp hnd2).1
          rw [hx] at this
          rw [hzz] at hzmem
          exact this hzmem
    · -- the fresh vertex is inside the cycle list
      obtain ⟨l1, l2, hl⟩ := List.append_of_mem hbl
      subst hl
      obtain ⟨hc1, hc2⟩ := List.chain_split.mp hchain
      obtain ⟨u, hu, hub⟩ := chain_last_step hc1
      have hua : u = a := (edgeAdj_fresh_elim hab hfresh hub).2 rfl
      have humem : u ∈ p :: l1 := List.mem_of_mem_getLast? hu
      have hnodup : ((p :: l1) ++ (b :: l2)).Nodup := by
        simpa using hnd
      obtain ⟨-, -, hdisj⟩ := List.nodup_append.mp hnodup
      cases l2 with
      | nil =>
        -- b is the cycle's last element, so p follows b
        have hzb : z = b := by
          rw [List.getLast?_concat] at hz
          injection hz with hzb
          exact hzb.symm
        rw [hzb] at hzp
        have hpa : p = a := (edgeAdj_fresh_elim hab hfresh hzp).1 rfl
        cases l1 with
        | nil =>
          -- then the cycle is [p, b], too short
          simp at hlen
        | cons w l1' =>
          have humem' : u ∈ p :: w :: l1' := humem
          rcases List.mem_cons.mp humem' with hup | hul
          · -- u = p = a, and u is the last of p :: l1, so p repeats
            have := List.mem_of_mem_getLast? hu
            rcases List.mem_cons.mp this with h2 | h2
            · -- getLast of a two-or-more list equal to its head:
              -- possible only if p occurs again
              rw [List.getLast?_cons_cons] at hu
              have : u ∈ w :: l1' := List.mem_of_mem_getLast? hu
              rw [hup] at this
              exact (List.nodup_cons.mp (by simpa using
                (List.nodup_append.mp hnodup).1)).1 this
            · rw [hup] at h2
              exact (List.nodup_cons.mp (by simpa using
                (List.nodup_append.mp hnodup).1)).1 h2
          · -- u ∈ l1 and u = a = p: p occurs inside l1
            rw [hua, ← hpa] at hul
            exact (List.nodup_cons.mp (by simpa using
              (List.nodup_append.mp hnodup).1)).1 hul
      | cons y l2' =>
        have hy : y = a :=
          ((edgeAdj_fresh_elim hab hfresh (List.chain_cons.mp hc2).1).1 rfl)
        -- a appears both in p :: l1 (as u) and in b :: y :: l2' (as y)
        exact hdisj (hua ▸ humem)
          (by rw [← hy]; exact List.mem_cons_of_mem _ (List.mem_cons_self _ _))
  · -- the cycle avoids the fresh vertex entirely: downgrade to E
    refine hnc p l ⟨hlen, hnd, ?_, z, hz, ?_⟩
    · refine chain_imp_of_mem hchain ?_
      intro x y hx hy hR
      exact edgeAdj_fresh_downgrade hR (fun hxb => hb (hxb ▸ hx))
        (fun hyb => hb (hyb ▸ hy))
    · have hzl : z ∈ p :: l := List.mem_cons_of_mem p (List.mem_of_mem_getLast? hz)
      exact edgeAdj_fresh_downgrade hzp (fun hzb => hb (hzb ▸ hzl))
        (fun hpb => hb (hpb ▸ List.mem_cons_self p l))

theorem Board.get_from_pair_isSome_iff {T : Type} {b : Board T} {q : Pair} :
    ((b.get_from_pair q).isSome = true) ↔
      ∃ row, 0 ≤ q.row ∧ b.grid[q.row.toNat]? = some row ∧ 0 ≤ q.col ∧
        q.col.toNat < row.length := by
  rw [Option.isSome_iff_exists]
  constructor
  · rintro ⟨x, hx⟩
    obtain ⟨ri, row, ci, h1, h2, h3, h4⟩ := Board.get_from_pair_eq_some.mp hx
    obtain ⟨hr0, hrn⟩ := usizeTryFrom_eq_some.mp h1
    obtain ⟨hc0, hcn⟩ := usizeTryFrom_eq_some.mp h3
    subst hrn; subst hcn
    exact ⟨row, hr0, h2, hc0, (List.getElem?_eq_some_iff.mp h4).1⟩
  · rintro ⟨row, hr0, hrow, hc0, hcol⟩
    cases hcell : row[q.col.toNat]? with
    | none =>
      rw [List.getElem?_eq_none_iff] at hcell
      omega
    | some x =>
      exact ⟨x, Board.get_from_pair_eq_some.mpr
        ⟨q.row.toNat, row, q.col.toNat, usizeTryFrom_eq_some.mpr ⟨hr0, rfl⟩,
          hrow, usizeTryFrom_eq_some.mpr ⟨hc0, rfl⟩, hcell⟩⟩

/-- On a board with uniform row width, readability is a pure bounds check. -/
theorem onBoard_iff_uniform {T : Type} {b : Board T} {L : Nat}
    (hu : UniformWidth b L) {q : Pair} :
    ((b.get_from_pair q).isSome = true) ↔
      0 ≤ q.row ∧ q.row.toNat < b.grid.length ∧ 0 ≤ q.col ∧ q.col.toNat < L := by
  rw [Board.get_from_pair_isSome_iff]
  constructor
  · rintro ⟨row, hr0, hrow, hc0, hcol⟩
    have hlen := hu row (List.getElem?_mem hrow)
    exact ⟨hr0, (List.getElem?_eq_some_iff.mp hrow).1, hc0, hlen ▸ hcol⟩
  · rintro ⟨hr0, hrn, hc0, hcL⟩
    cases hrow : b.grid[q.row.toNat]? with
    | none =>
      rw [List.getElem?_eq_none_iff] at hrow
      omega
    | some row =>
      have hlen := hu row (List.getElem?_mem hrow)
      exact ⟨row, hr0, rfl, hc0, by omega⟩

theorem reach_same_col {T : Type} {b : Board T} {L : Nat}
    (hu : UniformWidth b L) :
    ∀ (n : Nat) (p q : Pair), (q.row - p.row).natAbs = 2 * n → p.col = q.col →
      isCellPos p → isCellPos q →
      (b.get_from_pair p).isSome = true → (b.get_from_pair q).isSome = true →
      Relation.ReflTransGen (cellAdj b) p q := by
  intro n
  induction n with
  | zero =>
    intro p q habs hcol _ _ _ _
    have : p = q := by
      obtain ⟨pr, pc⟩ := p
      obtain ⟨qr, qc⟩ := q
      simp only [Pair.mk.injEq]
      simp only [] at habs hcol
      omega
    rw [this]
  | succ n ih =>
    intro p q habs hcol hp hq hbp hbq
    obtain ⟨hp1, hp2⟩ := hp
    obtain ⟨hq1, hq2⟩ := hq
    obtain ⟨hp0, hpN, hpc0, hpcL⟩ := (onBoard_iff_uniform hu).mp hbp
    obtain ⟨hq0, hqN, hqc0, hqcL⟩ := (onBoard_iff_uniform hu).mp hbq
    by_cases hlt : p.row < q.row
    · have hb' : (b.get_from_pair ⟨p.row + 2, p.col⟩).isSome = true := by
        rw [onBoard_iff_uniform hu]
        exact ⟨show (0:Int) ≤ p.row + 2 by omega,
          show (p.row + 2).toNat < b.grid.length by omega,
          show (0:Int) ≤ p.col by omega,
          show p.col.toNat < L by omega⟩
      have hstep : cellAdj b p ⟨p.row + 2, p.col⟩ :=
        ⟨hbp, hb', Direction.Down, by
          simp [Pair.add, Pair.smul, Pair.fromDirection, CELL_STEP]⟩
      exact Relation.ReflTransGen.head hstep (ih ⟨p.row + 2, p.col⟩ q
        (show (q.row - (p.row + 2)).natAbs = 2 * n by omega) hcol
        ⟨show (p.row + 2) % 2 = 1 by omega, hp2⟩ ⟨hq1, hq2⟩ hb' hbq)
    · have hgt : q.row < p.row := by omega
      have hb' : (b.get_from_pair ⟨p.row - 2, p.col⟩).isSome = true := by
        rw [onBoard_iff_uniform hu]
        exact ⟨show (0:Int) ≤ p.row - 2 by omega,
          show (p.row - 2).toNat < b.grid.length by omega,
          show (0:Int) ≤ p.col by omega,
          show p.col.toNat < L by omega⟩
      have hstep : cellAdj b p ⟨p.row - 2, p.col⟩ :=
        ⟨hbp, hb', Direction.Up, by
          obtain ⟨pr, pc⟩ := p
          simp [Pair.add, Pair.smul, Pair.fromDirection, CELL_STEP, Pair.mk.injEq]
          omega⟩
      exact Relation.ReflTransGen.head hstep (ih ⟨p.row - 2, p.col⟩ q
        (show (q.row - (p.row - 2)).natAbs = 2 * n by omega) hcol
        ⟨show (p.row - 2) % 2 = 1 by omega, hp2⟩ ⟨hq1, hq2⟩ hb' hbq)

theorem reach_same_row {T : Type} {b : Board T} {L : Nat}
    (hu : UniformWidth b L) :
    ∀ (n : Nat) (p q : Pair), (q.col - p.col).natAbs = 2 * n → p.row = q.row →
      isCellPos p → isCellPos q →
      (b.get_from_pair p).isSome = true → (b.get_from_pair q).isSome = true →
      Relation.ReflTransGen (cellAdj b) p q := by
  intro n
  induction n with
  | zero =>
    intro p q habs hrow _ _ _ _
    have : p = q := by
      obtain ⟨pr, pc⟩ := p
      obtain ⟨qr, qc⟩ := q
      simp only [Pair.mk.injEq]
      simp only [] at habs hrow
      omega
    rw [this]
  | succ n ih =>
    intro p q habs hrow hp hq hbp hbq
    obtain ⟨hp1, hp2⟩ := hp
    obtain ⟨hq1, hq2⟩ := hq
    obtain ⟨hp0, hpN, hpc0, hpcL⟩ := (onBoard_iff_uniform hu).mp hbp
    obtain ⟨hq0, hqN, hqc0, hqcL⟩ := (onBoard_iff_uniform hu).mp hbq
    by_cases hlt : p.col < q.col
    · have hb' : (b.get_from_pair ⟨p.row, p.col + 2⟩).isSome = true := by
        rw [onBoard_iff_uniform hu]
        exact ⟨show (0:Int) ≤ p.row by omega,
          show p.row.toNat < b.grid.length by omega,
          show (0:Int) ≤ p.col + 2 by omega,
          show (p.col + 2).toNat < L by omega⟩
      have hstep : cellAdj b p ⟨p.row, p.col + 2⟩ :=
        ⟨hbp, hb', Direction.Right, by
          simp [Pair.add, Pair.smul, Pair.fromDirection, CELL_STEP]⟩
      exact Relation.ReflTransGen.head hstep (ih ⟨p.row, p.col + 2⟩ q
        (show (q.col - (p.col + 2)).natAbs = 2 * n by omega) hrow
        ⟨hp1, show (p.col + 2) % 2 = 1 by omega⟩ ⟨hq1, hq2⟩ hb' hbq)
    · have hgt : q.col < p.col := by omega
      have hb' : (b.get_from_pair ⟨p.row, p.col - 2⟩).isSome = true := by
        rw [onBoard_iff_uniform hu]
        exact ⟨show (0:Int) ≤ p.row by omega,
          show p.row.toNat < b.grid.length by omega,
          show (0:Int) ≤ p.col - 2 by omega,
          show (p.col - 2).toNat < L by omega⟩
      have hstep : cellAdj b p ⟨p.row, p.col - 2⟩ :=
        ⟨hbp, hb', Direction.Left, by
          obtain ⟨pr, pc⟩ := p
          simp [Pair.add, Pair.smul, Pair.fromDirection, CELL_STEP, Pair.mk.injEq]
          omega⟩
      exact Relation.ReflTransGen.head hstep (ih ⟨p.row, p.col - 2⟩ q
        (show (q.col - (p.col - 2)).natAbs = 2 * n by omega) hrow
        ⟨hp1, show (p.col - 2) % 2 = 1 by omega⟩ ⟨hq1, hq2⟩ hb' hbq)

/-- On a uniformly wide board, any two on-board cell centers are connected
in the cell graph. -/
theorem reach_of_onBoard {T : Type} {b : Board T} {L : Nat}
    (hu : UniformWidth b L) (p q : Pair) (hp : isCellPos p) (hq : isCellPos q)
    (hbp : (b.get_from_pair p).isSome = true)
    (hbq : (b.get_from_pair q).isSome = true) :
    Relation.ReflTransGen (cellAdj b) p q := by
  obtain ⟨hp0, hpN, hpc0, hpcL⟩ := (onBoard_iff_uniform hu).mp hbp
  obtain ⟨hq0, hqN, hqc0, hqcL⟩ := (onBoard_iff_uniform hu).mp hbq
  have hmid : ((b.get_from_pair ⟨q.row, p.col⟩).isSome = true) := by
    rw [onBoard_iff_uniform hu]
    exact ⟨hq0, hqN, hpc0, hpcL⟩
  obtain ⟨n1, hn1⟩ : ∃ n1, (q.row - p.row).natAbs = 2 * n1 := by
    obtain ⟨h1, -⟩ := hp
    obtain ⟨h2, -⟩ := hq
    refine ⟨(q.row - p.row).natAbs / 2, ?_⟩
    omega
  obtain ⟨n2, hn2⟩ : ∃ n2, (q.col - p.col).natAbs = 2 * n2 := by
    obtain ⟨-, h1⟩ := hp
    obtain ⟨-, h2⟩ := hq
    refine ⟨(q.col - p.col).natAbs / 2, ?_⟩
    omega
  exact Relation.ReflTransGen.trans
    (reach_same_col hu n1 p ⟨q.row, p.col⟩
      (show (q.row - p.row).natAbs = 2 * n1 from hn1) rfl hp ⟨hq.1, hp.2⟩ hbp hmid)
    (reach_same_row hu n2 ⟨q.row, p.col⟩ q
      (show (q.col - p.col).natAbs = 2 * n2 from hn2) rfl ⟨hq.1, hp.2⟩ hq hmid hbq)

theorem Maze.choose_random_unvisited_direction_eq_none {pair : Pair}
    {visited : Board VisitStatus} {r : Nat} :
    Maze.choose_random_unvisited_direction pair visited r = none ↔
      Maze.get_unvisited_directions pair visited = [] := by
  unfold Maze.choose_random_unvisited_direction
  cases hl : Maze.get_unvisited_directions pair visited with
  | nil => simp
  | cons d l =>
    rw [List.getElem?_eq_none_iff]
    constructor
    · intro hlen
      have := Nat.mod_lt r (show 0 < (d :: l).length by simp)
      omega
    · intro h
      cases h

/-- With an empty candidate list, no two-step neighbour is `Unvisited`. -/
theorem Maze.get_unvisited_directions_eq_nil {pair : Pair}
    {visited : Board VisitStatus}
    (h : Maze.get_unvisited_directions pair visited = []) (d : Direction) :
    ¬ visited.get_from_pair
        (pair.add (Pair.smul CELL_STEP (Pair.fromDirection d)))
      = some VisitStatus.Unvisited := by
  unfold Maze.get_unvisited_directions at h
  rw [List.filter_eq_nil_iff] at h
  intro hc
  refine absurd (decide_eq_true hc) ?_
  simpa using h d (by cases d <;> simp [Direction.iter])

/-- Two in-between positions coincide only for the same carve step or for
the same wall crossed in the two opposite orientations. -/
theorem mid_eq_cases {a a' : Pair} {d d' : Direction}
    (ha : isCellPos a) (ha' : isCellPos a')
    (h : a.add (Pair.fromDirection d) = a'.add (Pair.fromDirection d')) :
    (a = a' ∧ d = d') ∨
      (a = a'.add (Pair.smul CELL_STEP (Pair.fromDirection d')) ∧
        a' = a.add (Pair.smul CELL_STEP (Pair.fromDirection d))) := by
  obtain ⟨h1, h2⟩ := ha
  obtain ⟨h3, h4⟩ := ha'
  obtain ⟨ar, ac⟩ := a
  obtain ⟨br, bc⟩ := a'
  simp only [] at h1 h2 h3 h4
  cases d <;> cases d' <;>
    simp only [Pair.add, Pair.fromDirection, Pair.smul, CELL_STEP,
      Pair.mk.injEq, reduceCtorEq, and_true, and_false, false_or, or_false] at h ⊢ <;>
    omega

/-- The carve loop instrumented with its ghost trace: `S` accumulates the
cells in visit order (newest first) and `E` the carved parent-child edges. -/
def Maze.carveLoopFuelE :
    Nat → Board Tile → Board VisitStatus → List Pair → (Nat → Nat) → Nat →
      List Pair → List (Pair × Pair) →
      Option (Board Tile × Board VisitStatus × Nat × List Pair ×
        List (Pair × Pair))
  | 0, _, _, _, _, _, _, _ => none
  | fuel + 1, board, visited, stack, o, k, S, E =>
    match stack with
    | [] => some (board, visited, k, S, E)
    | popped_pair :: rest =>
      match Maze.choose_random_unvisited_direction popped_pair visited (o k) with
      | none =>
        match Maze.visit_and_mark_as_path board visited popped_pair with
        | none => none
        | some (board', visited') =>
          Maze.carveLoopFuelE fuel board' visited' rest o k S E
      | some direction =>
        let new_pair :=
          popped_pair.add (Pair.smul CELL_STEP (Pair.fromDirection direction))
        match Maze.visit_and_mark_as_path board visited new_pair with
        | none => none
        | some (board1, visited1) =>
          let in_between_pair := popped_pair.add (Pair.fromDirection direction)
          match Maze.visit_and_mark_as_path board1 visited1 in_between_pair with
          | none => none
          | some (board2, visited2) =>
            Maze.carveLoopFuelE fuel board2 visited2
              (new_pair :: popped_pair :: rest) o (k + 1)
              (new_pair :: S) ((popped_pair, new_pair) :: E)

/-- Forgetting the ghost trace recovers the carve loop. -/
theorem Maze.carveLoopFuelE_proj :
    ∀ (fuel : Nat) (board : Board Tile) (visited : Board VisitStatus)
      (stack : List Pair) (o : Nat → Nat) (k : Nat) (S : List Pair)
      (E : List (Pair × Pair)),
      (Maze.carveLoopFuelE fuel board visited stack o k S E).map
          (fun r => (r.1, r.2.1, r.2.2.1))
        = Maze.carveLoopFuel fuel board visited stack o k := by
  intro fuel
  induction fuel with
  | zero => intro _ _ _ _ _ _ _; rfl
  | succ fuel ih =>
    intro board visited stack o k S E
    rw [Maze.carveLoopFuel_succ]
    cases stack with
    | nil => rfl
    | cons popped_pair rest =>
      simp only [Maze.carveLoopFuelE]
      cases hd : Maze.choose_random_unvisited_direction popped_pair visited (o k) with
      | none =>
        simp only []
        cases hvm : Maze.visit_and_mark_as_path board visited popped_pair with
        | none => rfl
        | some r =>
          obtain ⟨board', visited'⟩ := r
          simp only []
          exact ih board' visited' rest o k S E
      | some direction =>
        simp only []
        cases hv : Maze.visit_and_mark_as_path board visited
            (popped_pair.add (Pair.smul CELL_STEP (Pair.fromDirection direction))) with
        | none => rfl
        | some r1 =>
          obtain ⟨board1, visited1⟩ := r1
          simp only []
          cases hv2 : Maze.visit_and_mark_as_path board1 visited1
              (popped_pair.add (Pair.fromDirection direction)) with
          | none => rfl
          | some r2 =>
            obtain ⟨board2, visited2⟩ := r2
            simp only []
            exact ih board2 visited2 _ o (k + 1) _ _

/-- `from_backtracking` instrumented with the seed, the visit order, the
carved-edge list and the final visit-status board. -/
def Maze.from_backtrackingE (height width : Nat) (o : Nat → Nat) :
    RRes (Maze × Pair × List Pair × List (Pair × Pair) × Board VisitStatus) :=
  let board0 := Board.new Tile height width
  let visited0 := Board.new VisitStatus height width
  match Maze.choose_perimeter_pair board0 (o 0) (o 1) with
  | RRes.panicked => RRes.panicked
  | RRes.fail => RRes.fail
  | RRes.ok start =>
    let board1 := Maze.add_maze_entry start board0
    match Maze.visit_and_mark_as_path board1 visited0 start.pair with
    | none => RRes.fail
    | some (board2, visited2) =>
      match Maze.carveLoopFuelE
          (2 * Maze.unvisitedCount visited2 + [start.pair].length + 1)
          board2 visited2 [start.pair] o 2 [start.pair] [] with
      | none => RRes.fail
      | some (board3, visited3, k, S, E) =>
        match Maze.choose_perimeter_pair board3 (o k) (o (k + 1)) with
        | RRes.panicked => RRes.panicked
        | RRes.fail => RRes.fail
        | RRes.ok e =>
          match Maze.visit_and_mark_as_path board3 visited3 e.pair with
          | none => RRes.fail
          | some (board4, visited4) =>
            RRes.ok ({ board := Maze.add_maze_entry e board4 },
              start.pair, S, E, visited4)

/-- Forgetting the instrumentation recovers `from_backtracking`. -/
theorem Maze.from_backtrackingE_proj (height width : Nat) (o : Nat → Nat) :
    RRes.map (fun r => r.1) (Maze.from_backtrackingE height width o)
      = Maze.from_backtracking height width o := by
  unfold Maze.from_backtrackingE Maze.from_backtracking
  simp only []
  cases h1 : Maze.choose_perimeter_pair (Board.new Tile height width)
      (o 0) (o 1) with
  | panicked => rfl
  | fail => rfl
  | ok start =>
    simp only []
    cases h2 : Maze.visit_and_mark_as_path
        (Maze.add_maze_entry start (Board.new Tile height width))
        (Board.new VisitStatus height width) start.pair with
    | none => rfl
    | some r2 =>
      obtain ⟨board2, visited2⟩ := r2
      simp only []
      have hproj := Maze.carveLoopFuelE_proj
        (2 * Maze.unvisitedCount visited2 + [start.pair].length + 1)
        board2 visited2 [start.pair] o 2 [start.pair] []
      have hloop : Maze.carveLoopFuel
          (2 * Maze.unvisitedCount visited2 + [start.pair].length + 1)
          board2 visited2 [start.pair] o 2
        = Maze.carveLoop board2 visited2 [start.pair] o 2 := rfl
      rw [hloop] at hproj
      cases hE : Maze.carveLoopFuelE
          (2 * Maze.unvisitedCount visited2 + [start.pair].length + 1)
          board2 visited2 [start.pair] o 2 [start.pair] [] with
      | none =>
        rw [hE] at hproj
        simp only [Option.map] at hproj
        rw [← hproj]
        rfl
      | some r3 =>
        obtain ⟨board3, visited3, k, S, E⟩ := r3
        rw [hE] at hproj
        simp only [Option.map] at hproj
        rw [← hproj]
        simp only []
        cases h4 : Maze.choose_perimeter_pair board3 (o k) (o (k + 1)) with
        | panicked => rfl
        | fail => rfl
        | ok e =>
          simp only []
          cases h5 : Maze.visit_and_mark_as_path board3 visited3 e.pair with
          | none => rfl
          | some r5 =>
            obtain ⟨board4, visited4⟩ := r5
            rfl

theorem step_inj_dir {p : Pair} {d d' : Direction}
    (h : p.add (Pair.smul CELL_STEP (Pair.fromDirection d))
      = p.add (Pair.smul CELL_STEP (Pair.fromDirection d'))) : d = d' := by
  obtain ⟨pr, pc⟩ := p
  cases d <;> cases d' <;>
    simp only [Pair.add, Pair.smul, Pair.fromDirection, CELL_STEP,
      Pair.mk.injEq] at h <;>
    first
      | rfl
      | omega

/-- The invariant carried through the carve loop: `seed` is the seed cell,
`S` the set of visited cells (newest first, no duplicates), `E` the carved
parent-child edges.  The components say: `S` is exactly the set of visited
cell centers; the stack holds visited cells; board and visit map have the
same shape and width `L`; each edge joins two visited cells two steps
apart with its in-between tile carved to `Path`; every visited cell is
edge-connected to the seed; the edge count is one less than the visited
cell count; the carved edges have no cycle; every visited cell off the
stack has all its on-board two-step neighbours visited; every carved
non-cell `Path` tile is the in-between of some edge; and distinct edges
have distinct in-betweens. -/
def CarveInv (L : Nat) (seed : Pair) (board : Board Tile)
    (visited : Board VisitStatus) (stack S : List Pair)
    (E : List (Pair × Pair)) : Prop :=
  S.Nodup ∧
  (∀ p, p ∈ S ↔ (isCellPos p ∧
    visited.get_from_pair p = some VisitStatus.Visited)) ∧
  (∀ p ∈ stack, p ∈ S) ∧
  seed ∈ S ∧
  (∀ q, (board.get_from_pair q).isSome = (visited.get_from_pair q).isSome) ∧
  (∀ e ∈ E, e.1 ∈ S ∧ e.2 ∈ S ∧ ∃ d,
    e.2 = e.1.add (Pair.smul CELL_STEP (Pair.fromDirection d)) ∧
    board.get_from_pair (e.1.add (Pair.fromDirection d)) = some Tile.Path) ∧
  (∀ p ∈ S, Relation.ReflTransGen (edgeAdj E) seed p) ∧
  E.length + 1 = S.length ∧
  NoCycle E ∧
  (∀ p, isCellPos p → visited.get_from_pair p = some VisitStatus.Visited →
    p ∉ stack → ∀ d,
    ((visited.get_from_pair
      (p.add (Pair.smul CELL_STEP (Pair.fromDirection d)))).isSome = true) →
    visited.get_from_pair (p.add (Pair.smul CELL_STEP (Pair.fromDirection d)))
      = some VisitStatus.Visited) ∧
  (∀ q t, ¬ isCellPos q → board.get_from_pair q = some t → t = Tile.Path →
    ∃ e ∈ E, ∃ d, e.2 = e.1.add (Pair.smul CELL_STEP (Pair.fromDirection d)) ∧
      q = e.1.add (Pair.fromDirection d)) ∧
  (∀ e ∈ E, ∀ e' ∈ E, ∀ d d',
    e.2 = e.1.add (Pair.smul CELL_STEP (Pair.fromDirection d)) →
    e'.2 = e'.1.add (Pair.smul CELL_STEP (Pair.fromDirection d')) →
    e.1.add (Pair.fromDirection d) = e'.1.add (Pair.fromDirection d') →
    e = e') ∧
  UniformWidth visited L ∧
  (∀ p ∈ S, board.get_from_pair p = some Tile.Path)

/-- The backtrack branch preserves the invariant. -/
theorem CarveInv.backtrack {L : Nat} {seed : Pair} {board board' : Board Tile}
    {visited visited' : Board VisitStatus} {popped : Pair} {rest S : List Pair}
    {E : List (Pair × Pair)} {r : Nat}
    (inv : CarveInv L seed board visited (popped :: rest) S E)
    (hnone : Maze.choose_random_unvisited_direction popped visited r = none)
    (hvm : Maze.visit_and_mark_as_path board visited popped
      = some (board', visited')) :
    CarveInv L seed board' visited' rest S E := by
  obtain ⟨I1, I2, I3, I4, I5, I6, I7, I8, I9, I10, I11, I12, I13, I14⟩ := inv
  obtain ⟨w1, w2⟩ := Maze.visit_and_mark_as_path_get hvm
  obtain ⟨hsetb, hsetv⟩ := Maze.visit_and_mark_as_path_eq_some.mp hvm
  have hpoppedS : popped ∈ S := I3 popped (List.mem_cons_self _ _)
  obtain ⟨hpcell, hpvis⟩ := (I2 popped).mp hpoppedS
  have hv_ext : ∀ q, visited'.get_from_pair q = visited.get_from_pair q := by
    intro q
    rw [w2 q]
    by_cases hq : q = popped
    · rw [if_pos hq, hq, hpvis]
    · rw [if_neg hq]
  have hdirs := Maze.choose_random_unvisited_direction_eq_none.mp hnone
  refine ⟨I1, ?_, ?_, I4, ?_, ?_, I7, I8, I9, ?_, ?_, I12, ?_, ?_⟩
  · intro p
    rw [hv_ext p]
    exact I2 p
  · intro p hp
    exact I3 p (List.mem_cons_of_mem _ hp)
  · intro q
    rw [Board.set_from_pair_isSome_pointwise hsetb q,
      Board.set_from_pair_isSome_pointwise hsetv q]
    exact I5 q
  · intro e he
    obtain ⟨he1, he2, d, hd, hpath⟩ := I6 e he
    refine ⟨he1, he2, d, hd, ?_⟩
    rw [w1]
    by_cases hq : e.1.add (Pair.fromDirection d) = popped
    · rw [if_pos hq]
    · rw [if_neg hq]
      exact hpath
  · intro p hpc hpvis' hpstack d hnb
    rw [hv_ext] at hpvis'
    rw [hv_ext] at hnb
    rw [hv_ext]
    by_cases hpp : p = popped
    · subst hpp
      have := Maze.get_unvisited_directions_eq_nil hdirs d
      rw [Option.isSome_iff_exists] at hnb
      obtain ⟨st, hst⟩ := hnb
      cases st with
      | Unvisited => exact absurd hst this
      | Visited => exact hst
    · refine I10 p hpc hpvis' ?_ d hnb
      intro hmem
      rcases List.mem_cons.mp hmem with h | h
      · exact hpp h
      · exact hpstack h
  · intro q t hqcell hq ht
    rw [w1 q] at hq
    by_cases hqp : q = popped
    · rw [hqp] at hqcell
      exact absurd hpcell hqcell
    · rw [if_neg hqp] at hq
      exact I11 q t hqcell hq ht
  · exact Board.set_from_pair_uniformWidth hsetv I13
  · intro p hp
    rw [w1 p]
    by_cases hpp : p = popped
    · rw [if_pos hpp]
    · rw [if_neg hpp]
      exact I14 p hp

/-- The carve branch preserves the invariant: the fresh cell joins `S`,
the carved wall joins `E`. -/
theorem CarveInv.carve {L : Nat} {seed : Pair} {board b1 b2 : Board Tile}
    {visited v1 v2 : Board VisitStatus} {popped : Pair} {rest S : List Pair}
    {E : List (Pair × Pair)} {r : Nat} {d : Direction}
    (inv : CarveInv L seed board visited (popped :: rest) S E)
    (hsome : Maze.choose_random_unvisited_direction popped visited r = some d)
    (hv : Maze.visit_and_mark_as_path board visited
      (popped.add (Pair.smul CELL_STEP (Pair.fromDirection d))) = some (b1, v1))
    (hv2 : Maze.visit_and_mark_as_path b1 v1
      (popped.add (Pair.fromDirection d)) = some (b2, v2)) :
    CarveInv L seed b2 v2
      (popped.add (Pair.smul CELL_STEP (Pair.fromDirection d)) :: popped :: rest)
      (popped.add (Pair.smul CELL_STEP (Pair.fromDirection d)) :: S)
      ((popped, popped.add (Pair.smul CELL_STEP (Pair.fromDirection d))) :: E) := by
  obtain ⟨I1, I2, I3, I4, I5, I6, I7, I8, I9, I10, I11, I12, I13, I14⟩ := inv
  have hu := Maze.choose_random_unvisited_direction_spec hsome
  obtain ⟨wb1, wv1⟩ := Maze.visit_and_mark_as_path_get hv
  obtain ⟨wb2, wv2⟩ := Maze.visit_and_mark_as_path_get hv2
  obtain ⟨hsb1, hsv1⟩ := Maze.visit_and_mark_as_path_eq_some.mp hv
  obtain ⟨hsb2, hsv2⟩ := Maze.visit_and_mark_as_path_eq_some.mp hv2
  have hpoppedS : popped ∈ S := I3 popped (List.mem_cons_self _ _)
  obtain ⟨hpcell, hpvis⟩ := (I2 popped).mp hpoppedS
  have hnewcell : isCellPos
      (popped.add (Pair.smul CELL_STEP (Pair.fromDirection d))) :=
    isCellPos_add_step d hpcell
  have hnewS : popped.add (Pair.smul CELL_STEP (Pair.fromDirection d)) ∉ S := by
    intro h
    have := ((I2 _).mp h).2
    rw [hu] at this
    cases this
  have hnp : popped.add (Pair.smul CELL_STEP (Pair.fromDirection d)) ≠ popped :=
    step_ne_self d
  have hbn : popped.add (Pair.fromDirection d)
      ≠ popped.add (Pair.smul CELL_STEP (Pair.fromDirection d)) :=
    between_ne_step d
  have hbcell : ¬ isCellPos (popped.add (Pair.fromDirection d)) :=
    between_not_cellPos d hpcell
  have hScell : ∀ p ∈ S, isCellPos p := fun p hp => ((I2 p).mp hp).1
  have hv2c : ∀ q, v2.get_from_pair q =
      if q = popped.add (Pair.fromDirection d) then some VisitStatus.Visited
      else if q = popped.add (Pair.smul CELL_STEP (Pair.fromDirection d))
        then some VisitStatus.Visited
      else visited.get_from_pair q := by
    intro q
    rw [wv2 q]
    by_cases h1 : q = popped.add (Pair.fromDirection d)
    · rw [if_pos h1, if_pos h1]
    · rw [if_neg h1, if_neg h1, wv1 q]
  have hb2c : ∀ q, b2.get_from_pair q =
      if q = popped.add (Pair.fromDirection d) then some Tile.Path
      else if q = popped.add (Pair.smul CELL_STEP (Pair.fromDirection d))
        then some Tile.Path
      else board.get_from_pair q := by
    intro q
    rw [wb2 q]
    by_cases h1 : q = popped.add (Pair.fromDirection d)
    · rw [if_pos h1, if_pos h1]
    · rw [if_neg h1, if_neg h1, wb1 q]
  refine ⟨List.nodup_cons.mpr ⟨hnewS, I1⟩, ?_, ?_, List.mem_cons_of_mem _ I4,
    ?_, ?_, ?_, ?_, ?_, ?_, ?_, ?_, ?_, ?_⟩
  · -- S' characterizes the visited cells of v2
    intro p
    constructor
    · intro hp
      rcases List.mem_cons.mp hp with hp | hp
      · subst hp
        refine ⟨hnewcell, ?_⟩
        rw [hv2c, if_neg (fun h => hbn h.symm), if_pos rfl]
      · obtain ⟨hc, hval⟩ := (I2 p).mp hp
        refine ⟨hc, ?_⟩
        rw [hv2c, if_neg (fun h => hbcell (by rw [← h]; exact hc)),
          if_neg (fun h => hnewS (by rw [← h]; exact hp)), hval]
    · rintro ⟨hpc, hpv⟩
      rw [hv2c] at hpv
      by_cases h1 : p = popped.add (Pair.fromDirection d)
      · exact absurd hpc (h1 ▸ hbcell)
      · rw [if_neg h1] at hpv
        by_cases h2 : p = popped.add (Pair.smul CELL_STEP (Pair.fromDirection d))
        · rw [h2]
          exact List.mem_cons_self _ _
        · rw [if_neg h2] at hpv
          exact List.mem_cons_of_mem _ ((I2 p).mpr ⟨hpc, hpv⟩)
  · -- the new stack is still within S'
    intro p hp
    rcases List.mem_cons.mp hp with hp | hp
    · rw [hp]
      exact List.mem_cons_self _ _
    · exact List.mem_cons_of_mem _ (I3 p hp)
  · -- shape equality
    intro q
    rw [Board.set_from_pair_isSome_pointwise hsb2 q,
      Board.set_from_pair_isSome_pointwise hsb1 q,
      Board.set_from_pair_isSome_pointwise hsv2 q,
      Board.set_from_pair_isSome_pointwise hsv1 q]
    exact I5 q
  · -- edges: old ones persist, the new one is carved
    intro e he
    rcases List.mem_cons.mp he with he | he
    · subst he
      refine ⟨List.mem_cons_of_mem _ hpoppedS, List.mem_cons_self _ _, d,
        rfl, ?_⟩
      rw [hb2c, if_pos rfl]
    · obtain ⟨he1, he2, d0, hd0, hpath⟩ := I6 e he
      refine ⟨List.mem_cons_of_mem _ he1, List.mem_cons_of_mem _ he2, d0,
        hd0, ?_⟩
      rw [hb2c]
      by_cases h1 : e.1.add (Pair.fromDirection d0)
          = popped.add (Pair.fromDirection d)
      · rw [if_pos h1]
      · rw [if_neg h1]
        by_cases h2 : e.1.add (Pair.fromDirection d0)
            = popped.add (Pair.smul CELL_STEP (Pair.fromDirection d))
        · rw [if_pos h2]
        · rw [if_neg h2]
          exact hpath
  · -- connectivity to the seed
    intro p hp
    rcases List.mem_cons.mp hp with hp | hp
    · subst hp
      exact Relation.ReflTransGen.tail
        (reflTransGen_edgeAdj_mono _ (I7 popped hpoppedS))
        (Or.inl (List.mem_cons_self _ _))
    · exact reflTransGen_edgeAdj_mono _ (I7 p hp)
  · -- counting
    simp only [List.length_cons]
    omega
  · -- acyclicity: pendant edge to a fresh vertex
    refine noCycle_cons I9 (fun h => hnp h.symm) ?_
    intro e he
    obtain ⟨he1, he2, -⟩ := I6 e he
    exact ⟨fun h => hnewS (h ▸ he1), fun h => hnewS (h ▸ he2)⟩
  · -- closure off the stack
    intro p hpc hpv hpstack d0 hnb
    have hpnotnew : p ≠ popped.add (Pair.smul CELL_STEP (Pair.fromDirection d)) :=
      fun h => hpstack (h ▸ List.mem_cons_self _ _)
    have hpnotpopped : p ≠ popped :=
      fun h => hpstack (h ▸ List.mem_cons_of_mem _ (List.mem_cons_self _ _))
    have hpnotrest : p ∉ rest :=
      fun h => hpstack (List.mem_cons_of_mem _ (List.mem_cons_of_mem _ h))
    have hpnotbetween : p ≠ popped.add (Pair.fromDirection d) :=
      fun h => hbcell (h ▸ hpc)
    rw [hv2c, if_neg hpnotbetween, if_neg hpnotnew] at hpv
    have hnbcell : isCellPos (p.add (Pair.smul CELL_STEP (Pair.fromDirection d0))) :=
      isCellPos_add_step d0 hpc
    have hnbnotbetween : p.add (Pair.smul CELL_STEP (Pair.fromDirection d0))
        ≠ popped.add (Pair.fromDirection d) :=
      fun h => hbcell (h ▸ hnbcell)
    rw [hv2c, if_neg hnbnotbetween]
    by_cases hnbnew : p.add (Pair.smul CELL_STEP (Pair.fromDirection d0))
        = popped.add (Pair.smul CELL_STEP (Pair.fromDirection d))
    · rw [if_pos hnbnew]
    · rw [if_neg hnbnew]
      rw [hv2c, if_neg hnbnotbetween, if_neg hnbnew] at hnb
      refine I10 p hpc hpv ?_ d0 hnb
      intro hmem
      rcases List.mem_cons.mp hmem with h | h
      · exact hpnotpopped h
      · exact hpnotrest h
  · -- non-cell Path tiles are carved walls
    intro q t hqcell hq ht
    rw [hb2c] at hq
    by_cases h1 : q = popped.add (Pair.fromDirection d)
    · exact ⟨(popped, popped.add (Pair.smul CELL_STEP (Pair.fromDirection d))),
        List.mem_cons_self _ _, d, rfl, h1⟩
    · rw [if_neg h1] at hq
      by_cases h2 : q = popped.add (Pair.smul CELL_STEP (Pair.fromDirection d))
      · exact absurd (h2 ▸ hnewcell) hqcell
      · rw [if_neg h2] at hq
        obtain ⟨e, he, d0, hd0, hq0⟩ := I11 q t hqcell hq ht
        exact ⟨e, List.mem_cons_of_mem _ he, d0, hd0, hq0⟩
  · -- in-betweens remain pairwise distinct
    intro e he e' he' d0 d0' hd0 hd0' hmid
    rcases List.mem_cons.mp he with hee | hee <;>
      rcases List.mem_cons.mp he' with hee' | hee'
    · rw [hee, hee']
    · -- e is the new edge, e' an old one: impossible
      exfalso
      subst hee
      simp only [] at hd0 hmid
      have hd0d : d0 = d := step_inj_dir hd0.symm
      subst hd0d
      obtain ⟨he1, he2, -⟩ := I6 e' hee'
      rcases mid_eq_cases hpcell (hScell e'.1 he1) hmid with ⟨hpe, hde⟩ | ⟨h1, h2⟩
      · -- same cell and direction, so the old edge ends at the fresh cell
        rw [← hde] at hd0'
        rw [hd0', ← hpe] at he2
        exact hnewS he2
      · -- opposite orientation: the old edge starts at the fresh cell
        rw [h2] at he1
        exact hnewS he1
    · -- e' is the new edge, e an old one: impossible
      exfalso
      subst hee'
      simp only [] at hd0' hmid
      have hd0d : d0' = d := step_inj_dir hd0'.symm
      subst hd0d
      obtain ⟨he1, he2, -⟩ := I6 e hee
      rcases mid_eq_cases (hScell e.1 he1) hpcell hmid with ⟨hpe, hde⟩ | ⟨h1, h2⟩
      · rw [hde] at hd0
        rw [hd0, hpe] at he2
        exact hnewS he2
      · rw [h1] at he1
        exact hnewS he1
    · exact I12 e hee e' hee' d0 d0' hd0 hd0' hmid
  · exact Board.set_from_pair_uniformWidth hsv2
      (Board.set_from_pair_uniformWidth hsv1 I13)
  · intro p hp
    rw [hb2c p]
    by_cases h1 : p = popped.add (Pair.fromDirection d)
    · rw [if_pos h1]
    · rw [if_neg h1]
      by_cases h2 : p = popped.add (Pair.smul CELL_STEP (Pair.fromDirection d))
      · rw [if_pos h2]
      · rw [if_neg h2]
        rcases List.mem_cons.mp hp with hp | hp
        · exact absurd hp h2
        · exact I14 p hp

/-- Running the instrumented carve loop to completion preserves the
invariant, ending with an empty stack. -/
theorem Maze.carveLoopFuelE_inv {L : Nat} {seed : Pair} :
    ∀ (fuel : Nat) (board : Board Tile) (visited : Board VisitStatus)
      (stack : List Pair) (o : Nat → Nat) (k : Nat) (S : List Pair)
      (E : List (Pair × Pair)) (board' : Board Tile)
      (visited' : Board VisitStatus) (k' : Nat) (S' : List Pair)
      (E' : List (Pair × Pair)),
      CarveInv L seed board visited stack S E →
      Maze.carveLoopFuelE fuel board visited stack o k S E
        = some (board', visited', k', S', E') →
      CarveInv L seed board' visited' [] S' E' := by
  intro fuel
  induction fuel with
  | zero =>
    intro board visited stack o k S E board' visited' k' S' E' _ h
    exact absurd h (by simp [Maze.carveLoopFuelE])
  | succ fuel ih =>
    intro board visited stack o k S E board' visited' k' S' E' inv h
    cases stack with
    | nil =>
      simp only [Maze.carveLoopFuelE, Option.some.injEq, Prod.mk.injEq] at h
      obtain ⟨h1, h2, h3, h4, h5⟩ := h
      subst h1; subst h2; subst h4; subst h5
      exact inv
    | cons popped rest =>
      simp only [Maze.carveLoopFuelE] at h
      cases hd : Maze.choose_random_unvisited_direction popped visited (o k) with
      | none =>
        rw [hd] at h
        simp only [] at h
        cases hvm : Maze.visit_and_mark_as_path board visited popped with
        | none =>
          rw [hvm] at h
          exact absurd h (by simp)
        | some r =>
          obtain ⟨boardn, visitedn⟩ := r
          rw [hvm] at h
          simp only [] at h
          exact ih boardn visitedn rest o k S E board' visited' k' S' E'
            (CarveInv.backtrack inv hd hvm) h
      | some direction =>
        rw [hd] at h
        simp only [] at h
        cases hv : Maze.visit_and_mark_as_path board visited
            (popped.add (Pair.smul CELL_STEP (Pair.fromDirection direction))) with
        | none =>
          rw [hv] at h
          exact absurd h (by simp)
        | some r1 =>
          obtain ⟨b1, v1⟩ := r1
          rw [hv] at h
          simp only [] at h
          cases hv2 : Maze.visit_and_mark_as_path b1 v1
              (popped.add (Pair.fromDirection direction)) with
          | none =>
            rw [hv2] at h
            exact absurd h (by simp)
          | some r2 =>
            obtain ⟨b2, v2⟩ := r2
            rw [hv2] at h
            simp only [] at h
            exact ih b2 v2 _ o (k + 1) _ _ board' visited' k' S' E'
              (CarveInv.carve inv hd hv hv2) h

/-- The state entering the carve loop satisfies the invariant: the seed
cell is the only visited cell, the stack holds just the seed, and no edge
has been carved yet. -/
theorem CarveInv.initial {height width : Nat} {start : Perimeter}
    {sideR cellR : Nat} {board2 : Board Tile} {visited2 : Board VisitStatus}
    (hstart : Maze.choose_perimeter_pair (Board.new Tile height width)
      sideR cellR = RRes.ok start)
    (hvm : Maze.visit_and_mark_as_path
      (Maze.add_maze_entry start (Board.new Tile height width))
      (Board.new VisitStatus height width) start.pair
      = some (board2, visited2)) :
    CarveInv (Board.cell_position_to_index height) start.pair board2 visited2
      [start.pair] [start.pair] [] := by
  obtain ⟨hodd1, -, hodd2, -⟩ := Maze.choose_perimeter_pair_odd hstart
  have hcell : isCellPos start.pair := ⟨hodd1, hodd2⟩
  obtain ⟨wb, wv⟩ := Maze.visit_and_mark_as_path_get hvm
  obtain ⟨hsb, hsv⟩ := Maze.visit_and_mark_as_path_eq_some.mp hvm
  refine ⟨List.nodup_singleton _, ?_, ?_, List.mem_singleton_self _,
    ?_, ?_, ?_, rfl, noCycle_nil, ?_, ?_, ?_, ?_, ?_⟩
  · intro p
    constructor
    · intro hp
      rw [List.mem_singleton] at hp
      subst hp
      exact ⟨hcell, by rw [wv, if_pos rfl]⟩
    · rintro ⟨hpc, hval⟩
      rw [wv] at hval
      by_cases hps : p = start.pair
      · rw [hps]
        exact List.mem_singleton_self _
      · rw [if_neg hps] at hval
        exact absurd (Board.new_get hval) (by decide)
  · intro p hp
    exact hp
  · intro q
    rw [Board.set_from_pair_isSome_pointwise hsb q,
      Board.set_from_pair_isSome_pointwise hsv q,
      Maze.add_maze_entry_isSome_pointwise start _ q,
      Board.new_isSome_pointwise Tile VisitStatus height width q]
  · intro e he
    cases he
  · intro p hp
    rw [List.mem_singleton] at hp
    rw [hp]
  · intro p hpc hval hnst d hsome
    exfalso
    rw [wv] at hval
    by_cases hps : p = start.pair
    · exact hnst (by rw [hps]; exact List.mem_singleton_self _)
    · rw [if_neg hps] at hval
      exact absurd (Board.new_get hval) (by decide)
  · intro q t hqc hget ht
    exfalso
    rw [wb] at hget
    by_cases hqs : q = start.pair
    · exact hqc (by rw [hqs]; exact hcell)
    · rw [if_neg hqs] at hget
      rcases Maze.add_maze_entry_get start (Board.new Tile height width) q with
        hw | ⟨hw, -⟩
      · rw [hw] at hget
        have := Board.new_get hget
        subst ht
        exact absurd this (by decide)
      · rw [hw] at hget
        injection hget with hget
        subst ht
        exact absurd hget (by decide)
  · intro e he
    cases he
  · exact Board.set_from_pair_uniformWidth hsv
      (Board.new_uniformWidth VisitStatus height width)
  · intro p hp
    rw [List.mem_singleton] at hp
    subst hp
    rw [wb, if_pos rfl]

/-- The escape direction found by `add_maze_entry` points at an off-board
two-step neighbour. -/
theorem Maze.entryEscapeDir_offboard {pt : Perimeter} {board : Board Tile}
    {d : Direction} (h : Maze.entryEscapeDir pt board = some d) :
    board.get_from_pair (pt.pair.add
      (Pair.smul CELL_STEP (Pair.fromDirection d))) = none := by
  unfold Maze.entryEscapeDir at h
  have h2 := List.find?_some h
  simp only [] at h2
  exact Option.isNone_iff_eq_none.mp h2

/-- Away from the written entry tile, `add_maze_entry` changes nothing. -/
theorem Maze.add_maze_entry_get_of_ne (pt : Perimeter) (board : Board Tile)
    {q : Pair}
    (hq : ∀ d, Maze.entryEscapeDir pt board = some d →
      q ≠ pt.pair.add (Pair.fromDirection d)) :
    (Maze.add_maze_entry pt board).get_from_pair q = board.get_from_pair q := by
  rw [Maze.add_maze_entry_eq]
  cases hE : Maze.entryEscapeDir pt board with
  | none => rfl
  | some d =>
    simp only []
    cases hset : board.set_from_pair (pt.pair.add (Pair.fromDirection d))
        Tile.Entry with
    | none => rfl
    | some b' =>
      rw [Board.get_from_pair_set_from_pair hset q, if_neg (hq d hE)]

/-- Decomposition of a successful instrumented run into its five stages. -/
theorem Maze.from_backtrackingE_eq_ok {height width : Nat} {o : Nat → Nat}
    {m : Maze} {seed : Pair} {S : List Pair} {E : List (Pair × Pair)}
    {vF : Board VisitStatus}
    (h : Maze.from_backtrackingE height width o = RRes.ok (m, seed, S, E, vF)) :
    ∃ start board2 visited2 board3 visited3 k board4,
      Maze.choose_perimeter_pair (Board.new Tile height width) (o 0) (o 1)
        = RRes.ok start ∧
      Maze.visit_and_mark_as_path
          (Maze.add_maze_entry start (Board.new Tile height width))
          (Board.new VisitStatus height width) start.pair
        = some (board2, visited2) ∧
      Maze.carveLoopFuelE
          (2 * Maze.unvisitedCount visited2 + [start.pair].length + 1)
          board2 visited2 [start.pair] o 2 [start.pair] []
        = some (board3, visited3, k, S, E) ∧
      seed = start.pair ∧
      ∃ e : Perimeter,
        Maze.choose_perimeter_pair board3 (o k) (o (k + 1)) = RRes.ok e ∧
        Maze.visit_and_mark_as_path board3 visited3 e.pair
          = some (board4, vF) ∧
        m = { board := Maze.add_maze_entry e board4 } := by
  unfold Maze.from_backtrackingE at h
  simp only [] at h
  cases h1 : Maze.choose_perimeter_pair (Board.new Tile height width)
      (o 0) (o 1) with
  | panicked => rw [h1] at h; cases h
  | fail => rw [h1] at h; cases h
  | ok start =>
    rw [h1] at h
    simp only [] at h
    cases h2 : Maze.visit_and_mark_as_path
        (Maze.add_maze_entry start (Board.new Tile height width))
        (Board.new VisitStatus height width) start.pair with
    | none => rw [h2] at h; cases h
    | some r2 =>
      obtain ⟨board2, visited2⟩ := r2
      rw [h2] at h
      simp only [] at h
      cases h3 : Maze.carveLoopFuelE
          (2 * Maze.unvisitedCount visited2 + [start.pair].length + 1)
          board2 visited2 [start.pair] o 2 [start.pair] [] with
      | none => rw [h3] at h; cases h
      | some r3 =>
        obtain ⟨board3, visited3, k, S0, E0⟩ := r3
        rw [h3] at h
        simp only [] at h
        cases h4 : Maze.choose_perimeter_pair board3 (o k) (o (k + 1)) with
        | panicked => rw [h4] at h; cases h
        | fail => rw [h4] at h; cases h
        | ok e =>
          rw [h4] at h
          simp only [] at h
          cases h5 : Maze.visit_and_mark_as_path board3 visited3 e.pair with
          | none => rw [h5] at h; cases h
          | some r5 =>
            obtain ⟨board4, visited4⟩ := r5
            rw [h5] at h
            simp only [RRes.ok.injEq, Prod.mk.injEq] at h
            obtain ⟨hm, hseed, hS, hE, hvF⟩ := h
            subst hm; subst hseed; subst hS; subst hE; subst hvF
            exact ⟨start, board2, visited2, board3, visited3, k, board4,
              rfl, h2, h3, rfl, e, h4, h5, rfl⟩

/-- C3: on every successful run the carved maze is a spanning tree of the
cell graph.  The visit trace `S` has no duplicates, contains the seed, and
holds exactly the cells marked `Visited`; every cell reachable from the
seed on the final board is in `S`; every cell of `S` is `Visited`, carved
to `Path`, and connected to the seed through the carved edges; each carved
edge joins two visited cells two steps apart and its in-between wall tile
is carved to `Path` on the final board; the carved edges contain no simple
cycle; and the number of carved edges is one less than the number of
visited cells. -/
theorem carved_maze_spanning_tree (height width : Nat) (o : Nat → Nat)
    (m : Maze) (seed : Pair) (S : List Pair) (E : List (Pair × Pair))
    (vF : Board VisitStatus)
    (h : Maze.from_backtrackingE height width o
      = RRes.ok (m, seed, S, E, vF)) :
    S.Nodup ∧ seed ∈ S ∧
    (∀ p, isCellPos p →
      Relation.ReflTransGen (cellAdj m.board) seed p → p ∈ S) ∧
    (∀ p ∈ S, isCellPos p ∧
      vF.get_from_pair p = some VisitStatus.Visited ∧
      m.board.get_from_pair p = some Tile.Path ∧
      Relation.ReflTransGen (edgeAdj E) seed p) ∧
    (∀ ed ∈ E, ed.1 ∈ S ∧ ed.2 ∈ S ∧ ∃ d,
      ed.2 = ed.1.add (Pair.smul CELL_STEP (Pair.fromDirection d)) ∧
      m.board.get_from_pair (ed.1.add (Pair.fromDirection d))
        = some Tile.Path) ∧
    NoCycle E ∧
    E.length + 1 = S.length := by
  obtain ⟨start, board2, visited2, board3, visited3, k, board4,
    h1, h2, h3, hseed, e, h4, h5, hm⟩ := Maze.from_backtrackingE_eq_ok h
  subst hseed
  subst hm
  have inv0 := CarveInv.initial h1 h2
  have inv := Maze.carveLoopFuelE_inv
    (2 * Maze.unvisitedCount visited2 + [start.pair].length + 1)
    board2 visited2 [start.pair] o 2 [start.pair] [] board3 visited3 k S E
    inv0 h3
  obtain ⟨I1, I2, I3, I4, I5, I6, I7, I8, I9, I10, I11, I12, I13, I14⟩ := inv
  obtain ⟨wb4, wv4⟩ := Maze.visit_and_mark_as_path_get h5
  obtain ⟨hsb4, hsv4⟩ := Maze.visit_and_mark_as_path_eq_some.mp h5
  obtain ⟨ho1, -, ho2, -⟩ := Maze.choose_perimeter_pair_odd h4
  have hecell : isCellPos e.pair := ⟨ho1, ho2⟩
  have heOn : (visited3.get_from_pair e.pair).isSome = true := by
    obtain ⟨x, hx⟩ := Board.set_from_pair_isSome_get hsv4
    rw [hx]
    rfl
  obtain ⟨hseedc, hseedv⟩ := (I2 start.pair).mp I4
  have hseedOn : (visited3.get_from_pair start.pair).isSome = true := by
    rw [hseedv]
    rfl
  have hall : ∀ p, isCellPos p → (visited3.get_from_pair p).isSome = true →
      p ∈ S := by
    intro p hpc hpOn
    have hreach := reach_of_onBoard I13 start.pair p hseedc hpc hseedOn hpOn
    clear hpc hpOn
    induction hreach with
    | refl => exact I4
    | tail hqr hstep ih =>
      obtain ⟨hbOn, hcOn, d, hcd⟩ := hstep
      obtain ⟨hbc, hbv⟩ := (I2 _).mp ih
      rw [hcd]
      have hcv := I10 _ hbc hbv (List.not_mem_nil _) d
        (by rw [← hcd]; exact hcOn)
      exact (I2 _).mpr ⟨isCellPos_add_step d hbc, hcv⟩
  have heS : e.pair ∈ S := hall e.pair hecell heOn
  have hSOn : ∀ p ∈ S, (board4.get_from_pair p).isSome = true := by
    intro p hp
    rw [Board.set_from_pair_isSome_pointwise hsb4 p, I5 p, ((I2 p).mp hp).2]
    rfl
  have hmid_ne : ∀ ed ∈ E, ∀ d',
      ed.2 = ed.1.add (Pair.smul CELL_STEP (Pair.fromDirection d')) →
      ∀ dE, Maze.entryEscapeDir e board4 = some dE →
      ed.1.add (Pair.fromDirection d') ≠ e.pair.add (Pair.fromDirection dE) := by
    intro ed hed d' hd' dE hE hqe
    have hnone := Maze.entryEscapeDir_offboard hE
    obtain ⟨he1, he2, -⟩ := I6 ed hed
    have hcell1 : isCellPos ed.1 := ((I2 _).mp he1).1
    rcases mid_eq_cases hecell hcell1 hqe.symm with ⟨hpe, hde⟩ | ⟨hA, hB⟩
    · have hq2 : ed.2 = e.pair.add (Pair.smul CELL_STEP (Pair.fromDirection dE)) := by
        rw [hd', ← hpe, ← hde]
      have hsome := hSOn ed.2 he2
      rw [hq2, hnone] at hsome
      simp at hsome
    · have hsome := hSOn ed.1 he1
      rw [hB, hnone] at hsome
      simp at hsome
  have hcellPath : ∀ p ∈ S,
      (Maze.add_maze_entry e board4).get_from_pair p = some Tile.Path := by
    intro p hp
    have hpc := ((I2 p).mp hp).1
    rw [Maze.add_maze_entry_get_of_ne e board4 (fun d hE hq =>
      between_not_cellPos d hecell (hq ▸ hpc))]
    rw [Board.get_from_pair_set_from_pair hsb4 p]
    by_cases hpe : p = e.pair
    · rw [if_pos hpe]
    · rw [if_neg hpe]
      exact I14 p hp
  have hedges : ∀ ed ∈ E, ed.1 ∈ S ∧ ed.2 ∈ S ∧ ∃ d,
      ed.2 = ed.1.add (Pair.smul CELL_STEP (Pair.fromDirection d)) ∧
      (Maze.add_maze_entry e board4).get_from_pair
        (ed.1.add (Pair.fromDirection d)) = some Tile.Path := by
    intro ed hed
    obtain ⟨he1, he2, d', hd', hmidp⟩ := I6 ed hed
    refine ⟨he1, he2, d', hd', ?_⟩
    rw [Maze.add_maze_entry_get_of_ne e board4
      (fun dE hE => hmid_ne ed hed d' hd' dE hE)]
    rw [Board.get_from_pair_set_from_pair hsb4]
    by_cases hme : ed.1.add (Pair.fromDirection d') = e.pair
    · rw [if_pos hme]
    · rw [if_neg hme]
      exact hmidp
  refine ⟨I1, I4, ?_, ?_, hedges, I9, I8⟩
  · intro p hpc hr
    rcases Relation.ReflTransGen.cases_tail hr with heq | ⟨q, hq, hstep⟩
    · rw [heq]
      exact I4
    · obtain ⟨-, hpOn, -⟩ := hstep
      have hvOn : (visited3.get_from_pair p).isSome = true := by
        rw [← I5 p, ← Board.set_from_pair_isSome_pointwise hsb4 p,
          ← Maze.add_maze_entry_isSome_pointwise e board4 p]
        exact hpOn
      exact hall p hpc hvOn
  · intro p hp
    refine ⟨((I2 p).mp hp).1, ?_, hcellPath p hp, I7 p hp⟩
    rw [wv4 p]
    by_cases hpe : p = e.pair
    · rw [if_pos hpe]
    · rw [if_neg hpe]
      exact ((I2 p).mp hp).2

instance : Inhabited Pair := ⟨⟨0, 0⟩⟩

instance {T : Type} : Inhabited (Board T) :=
  ⟨{ grid := [], cell_width := 0, cell_height := 0 }⟩

/-- C3 witness: on the concrete run `from_backtracking(1, 1)` with the
all-zero oracle, the carved edge count is one less than the visited cell
count. -/
theorem carved_maze_spanning_tree_witness :
    (RRes.getOk (Maze.from_backtrackingE 1 1 (fun _ => 0))).2.2.2.1.length + 1
      = (RRes.getOk (Maze.from_backtrackingE 1 1 (fun _ => 0))).2.2.1.length :=
  (carved_maze_spanning_tree 1 1 (fun _ => 0)
    (RRes.getOk (Maze.from_backtrackingE 1 1 (fun _ => 0))).1
    (RRes.getOk (Maze.from_backtrackingE 1 1 (fun _ => 0))).2.1
    (RRes.getOk (Maze.from_backtrackingE 1 1 (fun _ => 0))).2.2.1
    (RRes.getOk (Maze.from_backtrackingE 1 1 (fun _ => 0))).2.2.2.1
    (RRes.getOk (Maze.from_backtrackingE 1 1 (fun _ => 0))).2.2.2.2
    (by rfl)).2.2.2.2.2.2
